import Mathlib

/-!
Worst-individual tournament selection (`Beagle/EC/SelectWorstTournOp.cpp`).

A shallow embedding of `SelectWorstTournOp::selectOneIndividual` and of
`SelectWorstTournOp::registerParams`, and theorems about them.

The collaborators whose code is not part of the file (the randomizer, the ordering
predicate of the individuals, `uint2ordinal`, the logger) are parameters of the embedding;
the parameter register is modelled from the specification.
Every call the function makes on the randomizer, every `ioPool[...]` it evaluates and every
`isLess` it evaluates is written to an observation record, so that statements such as
"no draw is requested" or "no individual is compared" can be made about the code.
-/

set_option autoImplicit false

namespace Beagle

/-! ## `unsigned int` arithmetic -/

/-- Number of values of the C++ type `unsigned int` (32 bits wide). -/
def uintRange : Nat := 2 ^ 32

/-- The conversion `(unsigned int)n`. -/
def uintCast (n : Nat) : Nat := n % uintRange

/-- The difference `a - b` of two `unsigned int` values (wraps around below zero). -/
def uintSub (a b : Nat) : Nat := (a % uintRange + (uintRange - b % uintRange)) % uintRange

/-- The sum `a + b` of two `unsigned int` values (wraps around at `2 ^ 32`). -/
def uintAdd (a b : Nat) : Nat := (a + b) % uintRange

/-! ## Data model -/

/-- Modelled from the spec: the macro `Beagle_ValidateParameterM` and the class
`Individual::Bag` are not part of the file. `validateParameter` is the
configuration-validation error raised by `Beagle_ValidateParameterM(cond, name, constraint)`
when `cond` is false. A pool is indexed `0 .. size - 1`; `boundCheck` stands for a subscript
`ioPool[index]` whose index is not one of these positions, which has no value and ends the
call. -/
inductive Failure where
  | validateParameter (name constraint : String)
  | boundCheck (index size : Nat)
deriving DecidableEq, Repr

/-- What a call is observed to do to its collaborators, in program order. -/
inductive Event where
  /-- The call `rollInteger(inLow, inHigh)` and the value it gave, as the `unsigned int`
  the code stores it in. -/
  | rollInteger (inLow inHigh result : Nat)
  /-- The subscript `ioPool[index]` was evaluated. -/
  | poolRead (index : Nat)
  /-- The call `ioPool[tried]->isLess(*ioPool[chosen])` and the value it returned. -/
  | isLess (tried chosen : Nat) (result : Bool)
deriving DecidableEq, Repr

/-- Modelled from the spec: the logger is not part of the file. One diagnostic trace event
written to the logger: a message (`Beagle_LogDebugM`) or an individual
(`Beagle_LogObjectDebugM`), each with its type and class name. -/
inductive LogEntry (α : Type) where
  | message (type className text : String)
  | object (type className : String) (individual : α)

/-- Modelled from the spec: the logger and the logging macros are not part of the file.
`debugLogged` tells whether statements of level debug are active (log level and build
switch); only then do the debug macros evaluate their arguments and add an entry. -/
structure Logger (α : Type) where
  debugLogged : Bool
  entries : List (LogEntry α)

/-- The collaborators of the operator that are not defined in this file:
`Randomizer::rollInteger` as a function of the randomizer state, `Individual::isLess`,
and the helper `uint2ordinal`. -/
structure Env (ρ α : Type) where
  rollInteger : ρ → Nat → Nat → Nat × ρ
  isLess : α → α → Bool
  uint2ordinal : Nat → String

/-- The part of `Context` the operator uses: the randomizer and the logger of the system. -/
structure Context (ρ α : Type) where
  randomizer : ρ
  logger : Logger α

/-- State of a call in progress: the context together with the observation record. -/
structure Run (ρ α : Type) where
  randomizer : ρ
  logger : Logger α
  events : List Event

/-- What a call leaves behind: the returned index or the failure, the context after the
call, and the observation record of the call. -/
structure Outcome (ρ α : Type) where
  result : Except Failure Nat
  context : Context ρ α
  events : List Event

variable {ρ α : Type}

/-- The call starts with an empty observation record. -/
def Context.start (c : Context ρ α) : Run ρ α :=
  { randomizer := c.randomizer, logger := c.logger, events := [] }

/-- The context of a run. -/
def Run.context (r : Run ρ α) : Context ρ α :=
  { randomizer := r.randomizer, logger := r.logger }

/-! ## Primitive steps -/

/-- `ioContext.getSystem().getRandomizer().rollInteger(inLow, inHigh)`: the value the
randomizer returns, the randomizer advanced, and the draw written to the observation record
with the value as the `unsigned int` variable of the caller holds it. -/
def Run.rollInteger (env : Env ρ α) (inLow inHigh : Nat) (r : Run ρ α) : Nat × Run ρ α :=
  let d := env.rollInteger r.randomizer inLow inHigh
  (d.1, { r with randomizer := d.2,
                 events := r.events ++ [Event.rollInteger inLow inHigh (uintCast d.1)] })

/-- Modelled from the spec: the macro `Beagle_LogDebugM` is not part of the file.
`Beagle_LogDebugM(logger, "selection", "Beagle::SelectWorstTournOp", text)` adds the
message to the log when debug logging is active and does nothing else. -/
def Run.logDebug (text : String) (r : Run ρ α) : Run ρ α :=
  if r.logger.debugLogged then
    { r with logger := { r.logger with entries := r.logger.entries ++
        [LogEntry.message "selection" "Beagle::SelectWorstTournOp" text] } }
  else r

/-- Modelled from the spec: the class `Individual::Bag` is not part of the file. The
subscript `ioPool[index]` gives the individual at a position `0 .. size - 1` of the pool
and fails outside. -/
def Run.poolAt (ioPool : List α) (index : Nat) (r : Run ρ α) : Except Failure α × Run ρ α :=
  let r1 : Run ρ α := { r with events := r.events ++ [Event.poolRead index] }
  match ioPool[index]? with
  | some individual => (Except.ok individual, r1)
  | none => (Except.error (Failure.boundCheck index ioPool.length), r1)

/-- Modelled from the spec: the macro `Beagle_LogObjectDebugM` is not part of the file.
`Beagle_LogObjectDebugM(logger, "selection", "Beagle::SelectWorstTournOp", *ioPool[index])`
reads the pool and adds the individual to the log when debug logging is active and does
nothing else. -/
def Run.logObjectDebug (ioPool : List α) (index : Nat) (r : Run ρ α) :
    Except Failure Unit × Run ρ α :=
  if r.logger.debugLogged then
    match r.poolAt ioPool index with
    | (Except.error e, r1) => (Except.error e, r1)
    | (Except.ok individual, r1) =>
      (Except.ok (), { r1 with logger := { r1.logger with entries := r1.logger.entries ++
        [LogEntry.object "selection" "Beagle::SelectWorstTournOp" individual] } })
  else (Except.ok (), r)

/-- The upper end of the range of every draw: `((unsigned int)ioPool.size())-1`. -/
def poolHigh (ioPool : List α) : Nat := uintSub (uintCast ioPool.length) 1

/-! ## The operator -/

/-- One pass through the body of the `for` loop (lines 99 to 116): draw, store the value in
the `unsigned int lTriedIndividual` (a value that does not fit is narrowed),
evaluate `ioPool[lTriedIndividual]->isLess(*ioPool[lChoosenIndividual])` (the subscript of
the tried individual first), take the tried index when it holds and keep the current choice
otherwise, and log the decision. -/
def tournamentStep (env : Env ρ α) (ioPool : List α) (lChoosenIndividual : Nat)
    (r : Run ρ α) : Except Failure Nat × Run ρ α :=
  let d := r.rollInteger env 0 (poolHigh ioPool)
  let lTriedIndividual := uintCast d.1
  match d.2.poolAt ioPool lTriedIndividual with
  | (Except.error e, r1) => (Except.error e, r1)
  | (Except.ok tried, r1) =>
    match r1.poolAt ioPool lChoosenIndividual with
    | (Except.error e, r2) => (Except.error e, r2)
    | (Except.ok chosen, r2) =>
      let less := env.isLess tried chosen
      let r3 : Run ρ α :=
        { r2 with events := r2.events ++ [Event.isLess lTriedIndividual lChoosenIndividual less] }
      if less then
        (Except.ok lTriedIndividual,
          r3.logDebug ("Trying the " ++ env.uint2ordinal (uintAdd lTriedIndividual 1) ++
            " individual -> choosing it"))
      else
        (Except.ok lChoosenIndividual,
          r3.logDebug ("Trying the " ++ env.uint2ordinal (uintAdd lTriedIndividual 1) ++
            " individual -> the previously choosen one is worse"))

/-- The loop `for(unsigned int j=1; j<mNumberParticipants->getWrappedValue(); j++)`.
The body does not mention `j` and writes neither `j` nor the parameter, so the loop is the
body repeated once for each of the values `1, ..., k-1` of `j`: the first argument is the
number of values of `j` still to come. -/
def tournamentLoop (env : Env ρ α) (ioPool : List α) :
    Nat → Nat → Run ρ α → Except Failure Nat × Run ρ α
  | 0, lChoosenIndividual, r => (Except.ok lChoosenIndividual, r)
  | n + 1, lChoosenIndividual, r =>
    match tournamentStep env ioPool lChoosenIndividual r with
    | (Except.error e, r1) => (Except.error e, r1)
    | (Except.ok lChoosen, r1) => tournamentLoop env ioPool n lChoosen r1

/-- The end of the function (lines 119 to 132): the two final log statements and the
`return`. -/
def finish (env : Env ρ α) (ioPool : List α) (lChoosenIndividual : Nat) (r : Run ρ α) :
    Outcome ρ α :=
  let r1 := r.logDebug
    ("Selecting the " ++ env.uint2ordinal (uintAdd lChoosenIndividual 1) ++ " individual")
  match r1.logObjectDebug ioPool lChoosenIndividual with
  | (Except.error e, r2) => { result := Except.error e, context := r2.context, events := r2.events }
  | (Except.ok _, r2) =>
    { result := Except.ok lChoosenIndividual, context := r2.context, events := r2.events }

/-- `SelectWorstTournOp::selectOneIndividual(ioPool, ioContext)`, where
`mNumberParticipants` is the value `mNumberParticipants->getWrappedValue()` has during the
call (an `unsigned int`; the function never writes it). The first draw is stored in the
`unsigned int lChoosenIndividual` (a value that does not fit is narrowed), and what is
returned is the value of that variable, an `unsigned int`. -/
def selectOneIndividual (env : Env ρ α) (mNumberParticipants : Nat) (ioPool : List α)
    (ioContext : Context ρ α) : Outcome ρ α :=
  if mNumberParticipants > 0 then
    let d := ioContext.start.rollInteger env 0 (poolHigh ioPool)
    let lChoosenIndividual := uintCast d.1
    let r1 := d.2.logDebug
      ("Starting by choosing the " ++ env.uint2ordinal (uintAdd lChoosenIndividual 1) ++
        " individual")
    match tournamentLoop env ioPool (mNumberParticipants - 1) lChoosenIndividual r1 with
    | (Except.error e, r2) =>
      { result := Except.error e, context := r2.context, events := r2.events }
    | (Except.ok lChoosen, r2) => finish env ioPool lChoosen r2
  else
    { result := Except.error (Failure.validateParameter "ec.sel.worsttournsize" ">0"),
      context := ioContext, events := [] }

/-! ## Draw sequences and the algorithm as the specification words it -/

/-- The indices the next `n` calls `rollInteger(inLow, inHigh)` give, starting from the
randomizer state `s`: each is the value returned, as the `unsigned int` the code stores it
in. -/
def nextDraws (env : Env ρ α) (inLow inHigh : Nat) : Nat → ρ → List Nat
  | 0, _ => []
  | n + 1, s =>
    uintCast (env.rollInteger s inLow inHigh).1 ::
      nextDraws env inLow inHigh n (env.rollInteger s inLow inHigh).2

/-- The state of the randomizer after `n` calls `rollInteger(inLow, inHigh)`. -/
def randomizerAfter (env : Env ρ α) (inLow inHigh : Nat) : Nat → ρ → ρ
  | 0, s => s
  | n + 1, s => randomizerAfter env inLow inHigh n (env.rollInteger s inLow inHigh).2

/-- Whether the individual at `d` is strictly worse than the one at `candidate`
(`pool[d].isLess(pool[candidate])`); false when one of the two is not a position. -/
def isWorseAt (env : Env ρ α) (pool : List α) (d candidate : Nat) : Bool :=
  match pool[d]?, pool[candidate]? with
  | some a, some b => env.isLess a b
  | _, _ => false

/-- The replacement rule of the specification: a newly drawn index replaces the candidate
exactly when its individual is strictly worse. -/
def replaceIfWorse (env : Env ρ α) (pool : List α) (candidate d : Nat) : Nat :=
  if isWorseAt env pool d candidate then d else candidate

/-- The tournament as the specification words it: the left fold of the replacement rule
over the draws, started at the first draw. There is no result without a draw. -/
def worstOfDraws (env : Env ρ α) (pool : List α) : List Nat → Option Nat
  | [] => none
  | d0 :: later => some (later.foldl (replaceIfWorse env pool) d0)

/-- A randomizer that plays back a given list of draws, whatever range is asked for
(and answers `inLow` once the list is used up). -/
def scriptedRoll (s : List Nat) (inLow _inHigh : Nat) : Nat × List Nat :=
  match s with
  | [] => (inLow, [])
  | d :: ds => (d, ds)

/-- Individuals that are their own scalar fitness, ordered by `<`, drawn from a script. -/
def fitnessEnv : Env (List Nat) Nat :=
  { rollInteger := scriptedRoll, isLess := fun a b => decide (a < b), uint2ordinal := fun _ => "" }

/-- A context playing back `draws`, with an empty log. -/
def scriptedContext (draws : List Nat) (debugLogged : Bool) : Context (List Nat) Nat :=
  { randomizer := draws, logger := { debugLogged := debugLogged, entries := [] } }

/-- The observation record of one pass through the loop body that tries `d` against the
candidate `c`: the draw, the two reads of the pool, the comparison. -/
def stepEvents (env : Env ρ α) (pool : List α) (c d : Nat) : List Event :=
  [Event.rollInteger 0 (poolHigh pool) d, Event.poolRead d, Event.poolRead c,
    Event.isLess d c (isWorseAt env pool d c)]

/-- The observation record of the loop that starts with candidate `c` and then tries the
draws of the list in turn. -/
def loopEvents (env : Env ρ α) (pool : List α) : Nat → List Nat → List Event
  | _, [] => []
  | c, d :: ds => stepEvents env pool c d ++ loopEvents env pool (replaceIfWorse env pool c d) ds

/-- The observation record of a whole tournament over the given draws: the first draw, the
loop, and the read of the chosen individual by the last log statement when it is active. -/
def tournamentEvents (env : Env ρ α) (pool : List α) (debugLogged : Bool) : List Nat → List Event
  | [] => []
  | d0 :: later =>
    Event.rollInteger 0 (poolHigh pool) d0 :: (loopEvents env pool d0 later ++
      if debugLogged then [Event.poolRead (later.foldl (replaceIfWorse env pool) d0)] else [])

/-- Whether an event is a read of the pool. -/
def Event.isPoolRead : Event → Bool
  | Event.poolRead _ => true
  | _ => false

/-- Whether an event is a draw from the randomizer. -/
def Event.isDraw : Event → Bool
  | Event.rollInteger _ _ _ => true
  | _ => false

/-- Whether an event is an evaluation of the ordering predicate. -/
def Event.isComparison : Event → Bool
  | Event.isLess _ _ _ => true
  | _ => false

/-- The run after the first draw and the log statement that follows it (lines 89 to 96). -/
def afterFirstDraw (env : Env ρ α) (pool : List α) (ctx : Context ρ α) : Run ρ α :=
  (ctx.start.rollInteger env 0 (poolHigh pool)).2.logDebug
    ("Starting by choosing the " ++
      env.uint2ordinal (uintAdd (uintCast (ctx.start.rollInteger env 0 (poolHigh pool)).1) 1) ++
      " individual")

/-- A randomizer that answers within the range it is asked for. -/
def RollsInRange (env : Env ρ α) : Prop :=
  ∀ (s : ρ) (inLow inHigh : Nat), inLow ≤ inHigh →
    inLow ≤ (env.rollInteger s inLow inHigh).1 ∧ (env.rollInteger s inLow inHigh).1 ≤ inHigh

/-- A randomizer that plays back a list of raw values, each brought into the range that is
asked for (and answers `inLow` once the list is used up). -/
def rangedRoll (s : List Nat) (inLow inHigh : Nat) : Nat × List Nat :=
  match s with
  | [] => (inLow, [])
  | d :: ds => (inLow + d % (inHigh - inLow + 1), ds)

/-- Individuals that are their own scalar fitness, ordered by `<`, with a randomizer that
answers within the range. -/
def rangedEnv : Env (List Nat) Nat :=
  { rollInteger := rangedRoll, isLess := fun a b => decide (a < b), uint2ordinal := fun _ => "" }

/-- An ordering predicate that is not irreflexive: every individual `isLess` every other
and itself. The randomizer answers within the range. -/
def alwaysLessEnv : Env (List Nat) Nat :=
  { rollInteger := rangedRoll, isLess := fun _ _ => true, uint2ordinal := fun _ => "" }

/-! ## The parameter register and the operator -/

/-- Modelled from the spec: `Register::Description` is not part of the file. The description
given with a registry entry: a brief name, the type tag, the default value as text and a
human-readable description. -/
structure Description where
  brief : String
  type : String
  defaultValue : String
  description : String
deriving DecidableEq, Repr

/-- Modelled from the spec: the parameter classes are not part of the file. The object a
registry entry holds: a `UInt` with its wrapped value, or a parameter of another type (such
as the reproduction probability), kept as text. -/
inductive Object where
  | uint (wrappedValue : Nat)
  | other (text : String)
deriving DecidableEq, Repr

/-- Modelled from the spec: one named, typed entry of the register, with its object and its
description. -/
structure Entry where
  tag : String
  object : Object
  description : Description
deriving DecidableEq, Repr

/-- Modelled from the spec: the class `Register` is not part of the file. The register is a
store of named entries. Entries are kept in the order of their creation and are never
removed, so the position of an entry is a live reference to it: whoever holds the position
sees every later edit of the entry. `insertions` is the observation record of the calls of
`insertEntry`, in program order. -/
structure Register where
  entries : List Entry
  insertions : List Entry

/-- The position of the first entry named `tag`. -/
def indexOfTag (tag : String) : List Entry → Option Nat
  | [] => none
  | e :: es => if e.tag = tag then some 0 else (indexOfTag tag es).map (· + 1)

/-- The entries with the object of the first entry named `tag` replaced by `object`. -/
def setObject (tag : String) (object : Object) : List Entry → List Entry
  | [] => []
  | e :: es =>
    if e.tag = tag then { e with object := object } :: es else e :: setObject tag object es

/-- Modelled from the spec: `Register::insertEntry(inTag, inEntry, inDescription)` registers
the parameter under its name with its default value and description and returns a live
reference to the registry entry; when the name is registered already, the reference to the
entry that exists is returned and the entry is left as it is. -/
def Register.insertEntry (reg : Register) (inTag : String) (inEntry : Object)
    (inDescription : Description) : Nat × Register :=
  match indexOfTag inTag reg.entries with
  | some handle =>
    (handle, { reg with insertions := reg.insertions ++ [⟨inTag, inEntry, inDescription⟩] })
  | none =>
    (reg.entries.length,
      { entries := reg.entries ++ [⟨inTag, inEntry, inDescription⟩],
        insertions := reg.insertions ++ [⟨inTag, inEntry, inDescription⟩] })

/-- Modelled from the spec: a registry edit (such as external configuration loading) gives
the entry named `tag` a new value, in place. -/
def Register.edit (reg : Register) (tag : String) (object : Object) : Register :=
  { reg with entries := setObject tag object reg.entries }

/-- The part of `System` the operator uses: the register, and the randomizer and logger that
`selectOneIndividual` reaches through the context. -/
structure System (ρ α : Type) where
  register : Register
  context : Context ρ α

/-- A registry edit made on a system: the register is edited, randomizer and logger are
left alone. -/
def System.edit (sys : System ρ α) (tag : String) (object : Object) : System ρ α :=
  { register := sys.register.edit tag object, context := sys.context }

/-- The state of a `SelectWorstTournOp`: the two names given at construction and the handle
`mNumberParticipants` (`none` is `NULL`; otherwise the position of a registry entry). -/
structure SelectWorstTournOp where
  mReproProbaName : String
  mName : String
  mNumberParticipants : Option Nat

/-- The constructor `SelectWorstTournOp(inReproProbaName, inName)`: `mNumberParticipants`
starts as `NULL`. -/
def SelectWorstTournOp.construct (inReproProbaName inName : String) : SelectWorstTournOp :=
  { mReproProbaName := inReproProbaName, mName := inName, mNumberParticipants := none }

/-- Modelled from the spec: `Beagle::EC::SelectionOp::registerParams` is not part of the
file. The base registration registers the shared parameters of every selection operator
(such as the reproduction probability); `shared` lists its calls of `insertEntry`, in
order. -/
def SelectionOp.registerParams (shared : List Entry) (ioSystem : System ρ α) : System ρ α :=
  shared.foldl (fun sys e =>
    { sys with register := (sys.register.insertEntry e.tag e.object e.description).2 }) ioSystem

/-- The description built on lines 64 to 69. -/
def lDescription : Description :=
  { brief := "Selection tournaments size", type := "UInt", defaultValue := "2",
    description := "Number of participants for worst tournament selection." }

/-- The record of the call `insertEntry("ec.sel.worsttournsize", new UInt(2), lDescription)`
on lines 70 and 71. -/
def tournSizeInsertion : Entry :=
  { tag := "ec.sel.worsttournsize", object := Object.uint 2, description := lDescription }

/-- `SelectWorstTournOp::registerParams(ioSystem)`: the base registration, then the
insertion of the entry `ec.sel.worsttournsize` with a new `UInt(2)`, whose reference is kept
in `mNumberParticipants`. -/
def SelectWorstTournOp.registerParams (shared : List Entry) (op : SelectWorstTournOp)
    (ioSystem : System ρ α) : SelectWorstTournOp × System ρ α :=
  let sys1 := SelectionOp.registerParams shared ioSystem
  let inserted := sys1.register.insertEntry "ec.sel.worsttournsize" (Object.uint 2) lDescription
  ({ op with mNumberParticipants := some inserted.1 }, { sys1 with register := inserted.2 })

/-- The value of `mNumberParticipants->getWrappedValue()` in a register; there is none when
the handle is `NULL` or does not refer to a `UInt`. -/
def SelectWorstTournOp.getWrappedValue (op : SelectWorstTournOp) (reg : Register) :
    Option Nat :=
  match op.mNumberParticipants with
  | none => none
  | some handle =>
    match reg.entries[handle]? with
    | some e =>
      match e.object with
      | Object.uint wrappedValue => some wrappedValue
      | Object.other _ => none
    | none => none

/-- The ways a call on an operator can fail: `handle` when `mNumberParticipants` has no
unsigned value to give, `selection` for the failures of the function body. -/
inductive CallFailure where
  | handle
  | selection (failure : Failure)
deriving DecidableEq, Repr

/-- What a call on an operator leaves behind: the returned index or the failure, the pool
and the system after the call, and the observation record of the call. -/
structure Selection (ρ α : Type) where
  result : Except CallFailure Nat
  pool : List α
  system : System ρ α
  events : List Event

/-- The state a call of the member function works on: the pool that `ioPool` refers to, the
register of the system, in which the object behind `mNumberParticipants` lives, and the
run (randomizer, logger and observation record). Every statement of the function body takes
such a state to the next one. -/
structure Machine (ρ α : Type) where
  pool : List α
  register : Register
  run : Run ρ α

/-- `ioContext.getSystem().getRandomizer().rollInteger(inLow, inHigh)` on the state. -/
def Machine.rollInteger (env : Env ρ α) (inLow inHigh : Nat) (m : Machine ρ α) :
    Nat × Machine ρ α :=
  let d := m.run.rollInteger env inLow inHigh
  (d.1, { m with run := d.2 })

/-- `Beagle_LogDebugM(...)` on the state. -/
def Machine.logDebug (text : String) (m : Machine ρ α) : Machine ρ α :=
  { m with run := m.run.logDebug text }

/-- The subscript `ioPool[index]` on the state: the pool that is read is the pool of the
state. -/
def Machine.poolAt (index : Nat) (m : Machine ρ α) : Except Failure α × Machine ρ α :=
  let d := m.run.poolAt m.pool index
  (d.1, { m with run := d.2 })

/-- `Beagle_LogObjectDebugM(..., *ioPool[index])` on the state. -/
def Machine.logObjectDebug (index : Nat) (m : Machine ρ α) :
    Except Failure Unit × Machine ρ α :=
  let d := m.run.logObjectDebug m.pool index
  (d.1, { m with run := d.2 })

/-- What the caller finds when the call ends in the state `m` with `result`. -/
def Machine.selection (result : Except CallFailure Nat) (m : Machine ρ α) : Selection ρ α :=
  { result := result, pool := m.pool,
    system := { register := m.register, context := m.run.context }, events := m.run.events }

/-- One pass through the body of the `for` loop (lines 99 to 116) on the state. -/
def Machine.tournamentStep (env : Env ρ α) (lChoosenIndividual : Nat) (m : Machine ρ α) :
    Except Failure Nat × Machine ρ α :=
  let d := m.rollInteger env 0 (poolHigh m.pool)
  let lTriedIndividual := uintCast d.1
  match d.2.poolAt lTriedIndividual with
  | (Except.error e, m1) => (Except.error e, m1)
  | (Except.ok tried, m1) =>
    match m1.poolAt lChoosenIndividual with
    | (Except.error e, m2) => (Except.error e, m2)
    | (Except.ok chosen, m2) =>
      let less := env.isLess tried chosen
      let m3 : Machine ρ α :=
        { m2 with run := { m2.run with events := m2.run.events ++
            [Event.isLess lTriedIndividual lChoosenIndividual less] } }
      if less then
        (Except.ok lTriedIndividual,
          m3.logDebug ("Trying the " ++ env.uint2ordinal (uintAdd lTriedIndividual 1) ++
            " individual -> choosing it"))
      else
        (Except.ok lChoosenIndividual,
          m3.logDebug ("Trying the " ++ env.uint2ordinal (uintAdd lTriedIndividual 1) ++
            " individual -> the previously choosen one is worse"))

/-- The loop of lines 98 to 117 on the state, the body repeated for each of the values of
`j` still to come. The test `j<mNumberParticipants->getWrappedValue()` reads the register
and writes nothing, and no statement of the body names the handle, so the bound of every
test is the value read on entry. -/
def Machine.tournamentLoop (env : Env ρ α) :
    Nat → Nat → Machine ρ α → Except Failure Nat × Machine ρ α
  | 0, lChoosenIndividual, m => (Except.ok lChoosenIndividual, m)
  | n + 1, lChoosenIndividual, m =>
    match Machine.tournamentStep env lChoosenIndividual m with
    | (Except.error e, m1) => (Except.error e, m1)
    | (Except.ok lChoosen, m1) => Machine.tournamentLoop env n lChoosen m1

/-- The end of the function (lines 119 to 132) on the state. -/
def Machine.finish (env : Env ρ α) (lChoosenIndividual : Nat) (m : Machine ρ α) :
    Selection ρ α :=
  let m1 := m.logDebug
    ("Selecting the " ++ env.uint2ordinal (uintAdd lChoosenIndividual 1) ++ " individual")
  match m1.logObjectDebug lChoosenIndividual with
  | (Except.error e, m2) => m2.selection (Except.error (CallFailure.selection e))
  | (Except.ok _, m2) => m2.selection (Except.ok lChoosenIndividual)

/-- `SelectWorstTournOp::selectOneIndividual(ioPool, ioContext)` as a member function, run
statement by statement on the state made of the pool, the register and the context. The
tournament size is what the handle `mNumberParticipants` reads from the register at the
time of the call; without an unsigned value behind the handle the call fails before
anything else. -/
def SelectWorstTournOp.selectOneIndividual (env : Env ρ α) (op : SelectWorstTournOp)
    (ioPool : List α) (ioSystem : System ρ α) : Selection ρ α :=
  let m0 : Machine ρ α :=
    { pool := ioPool, register := ioSystem.register, run := ioSystem.context.start }
  match op.getWrappedValue m0.register with
  | none => m0.selection (Except.error CallFailure.handle)
  | some mNumberParticipants =>
    if mNumberParticipants > 0 then
      let d := m0.rollInteger env 0 (poolHigh m0.pool)
      let lChoosenIndividual := uintCast d.1
      let m1 := d.2.logDebug
        ("Starting by choosing the " ++ env.uint2ordinal (uintAdd lChoosenIndividual 1) ++
          " individual")
      match Machine.tournamentLoop env (mNumberParticipants - 1) lChoosenIndividual m1 with
      | (Except.error e, m2) => m2.selection (Except.error (CallFailure.selection e))
      | (Except.ok lChoosen, m2) => Machine.finish env lChoosen m2
    else
      m0.selection (Except.error (CallFailure.selection
        (Failure.validateParameter "ec.sel.worsttournsize" ">0")))

/-- What a call that runs the function body with `k` leaves behind, in terms of what the
body computes: the failure of the body is a failure of the call, and pool and register are
those given. -/
def Outcome.selection (out : Outcome ρ α) (pool : List α) (register : Register) :
    Selection ρ α :=
  { result :=
      match out.result with
      | Except.ok index => Except.ok index
      | Except.error e => Except.error (CallFailure.selection e),
    pool := pool,
    system := { register := register, context := out.context },
    events := out.events }

/-- A system with an empty register, playing back `draws`. -/
def scriptedSystem (draws : List Nat) (debugLogged : Bool) : System (List Nat) Nat :=
  { register := { entries := [], insertions := [] },
    context := scriptedContext draws debugLogged }

/-- The reproduction-probability parameter as the base registration could register it. -/
def reproProbaEntry : Entry :=
  { tag := "ec.repro.prob", object := Object.other "0.1",
    description := { brief := "Reproduction probability", type := "Double",
                     defaultValue := "0.1", description := "Probability of reproduction." } }

/-! ## Lemmas on the primitive steps -/

theorem Run.logDebug_randomizer (text : String) (r : Run ρ α) :
    (r.logDebug text).randomizer = r.randomizer := by
  unfold Run.logDebug; split <;> rfl

theorem Run.logDebug_events (text : String) (r : Run ρ α) :
    (r.logDebug text).events = r.events := by
  unfold Run.logDebug; split <;> rfl

theorem Run.logDebug_debugLogged (text : String) (r : Run ρ α) :
    (r.logDebug text).logger.debugLogged = r.logger.debugLogged := by
  unfold Run.logDebug; split <;> rfl

theorem Run.poolAt_of_lt (ioPool : List α) (index : Nat) (r : Run ρ α)
    (h : index < ioPool.length) :
    r.poolAt ioPool index =
      (Except.ok ioPool[index], { r with events := r.events ++ [Event.poolRead index] }) := by
  simp [Run.poolAt, List.getElem?_eq_getElem h]

theorem isWorseAt_of_lt (env : Env ρ α) (pool : List α) (d c : Nat)
    (hd : d < pool.length) (hc : c < pool.length) :
    isWorseAt env pool d c = env.isLess pool[d] pool[c] := by
  simp [isWorseAt, List.getElem?_eq_getElem hd, List.getElem?_eq_getElem hc]

theorem replaceIfWorse_lt (env : Env ρ α) (pool : List α) (c d : Nat)
    (hc : c < pool.length) (hd : d < pool.length) :
    replaceIfWorse env pool c d < pool.length := by
  unfold replaceIfWorse; split <;> assumption

/-- One pass of the loop body on positions of the pool: it succeeds with the candidate the
replacement rule gives, advances the randomizer by one draw and records the four events. -/
theorem tournamentStep_spec (env : Env ρ α) (pool : List α) (c : Nat) (r : Run ρ α)
    (hc : c < pool.length)
    (hd : (uintCast (env.rollInteger r.randomizer 0 (poolHigh pool)).1) < pool.length) :
    (tournamentStep env pool c r).1 =
        Except.ok (replaceIfWorse env pool c (uintCast (env.rollInteger r.randomizer 0 (poolHigh pool)).1)) ∧
      (tournamentStep env pool c r).2.randomizer =
        (env.rollInteger r.randomizer 0 (poolHigh pool)).2 ∧
      (tournamentStep env pool c r).2.events =
        r.events ++ stepEvents env pool c (uintCast (env.rollInteger r.randomizer 0 (poolHigh pool)).1) ∧
      (tournamentStep env pool c r).2.logger.debugLogged = r.logger.debugLogged := by
  unfold tournamentStep
  simp only [Run.rollInteger]
  rw [Run.poolAt_of_lt _ _ _ hd]
  simp only []
  rw [Run.poolAt_of_lt _ _ _ hc]
  simp only [replaceIfWorse, stepEvents, isWorseAt_of_lt env pool _ _ hd hc]
  split <;> rename_i h <;>
    simp [h, Run.logDebug_randomizer, Run.logDebug_events, Run.logDebug_debugLogged]

/-- The loop on positions of the pool: it succeeds with the fold of the replacement rule
over the next `n` draws, advances the randomizer by `n` draws and records the events of
the `n` passes. -/
theorem tournamentLoop_spec (env : Env ρ α) (pool : List α) :
    ∀ (n c : Nat) (r : Run ρ α), c < pool.length →
      (∀ d ∈ nextDraws env 0 (poolHigh pool) n r.randomizer, d < pool.length) →
      (tournamentLoop env pool n c r).1 =
          Except.ok ((nextDraws env 0 (poolHigh pool) n r.randomizer).foldl
            (replaceIfWorse env pool) c) ∧
        (tournamentLoop env pool n c r).2.randomizer =
          randomizerAfter env 0 (poolHigh pool) n r.randomizer ∧
        (tournamentLoop env pool n c r).2.events =
          r.events ++ loopEvents env pool c (nextDraws env 0 (poolHigh pool) n r.randomizer) ∧
        (tournamentLoop env pool n c r).2.logger.debugLogged = r.logger.debugLogged := by
  intro n
  induction n with
  | zero => intro c r _ _; simp [tournamentLoop, nextDraws, randomizerAfter, loopEvents]
  | succ n ih =>
    intro c r hc hd
    have hd0 : (uintCast (env.rollInteger r.randomizer 0 (poolHigh pool)).1) < pool.length :=
      hd _ (by simp [nextDraws])
    obtain ⟨h1, h2, h3, h4⟩ := tournamentStep_spec env pool c r hc hd0
    have hrest : ∀ d ∈ nextDraws env 0 (poolHigh pool) n (tournamentStep env pool c r).2.randomizer,
        d < pool.length := by
      intro d hmem
      rw [h2] at hmem
      exact hd d (by simp [nextDraws, hmem])
    obtain ⟨g1, g2, g3, g4⟩ := ih _ (tournamentStep env pool c r).2
      (replaceIfWorse_lt env pool c _ hc hd0) hrest
    rw [h2] at g1 g2 g3
    have hstep : tournamentStep env pool c r =
        (Except.ok (replaceIfWorse env pool c (uintCast (env.rollInteger r.randomizer 0 (poolHigh pool)).1)),
          (tournamentStep env pool c r).2) := by
      rw [← h1]
    simp only [tournamentLoop]
    rw [hstep]
    simp only [nextDraws, randomizerAfter, loopEvents, List.foldl_cons]
    refine ⟨g1, g2, ?_, ?_⟩
    · rw [g3, h3, List.append_assoc]
    · rw [g4, h4]

/-- The end of the function on a position of the pool: the index is returned, the
randomizer is left alone, and the pool is read once more exactly when debug logging is
active. -/
theorem finish_spec (env : Env ρ α) (pool : List α) (c : Nat) (r : Run ρ α)
    (hc : c < pool.length) :
    (finish env pool c r).result = Except.ok c ∧
      (finish env pool c r).context.randomizer = r.randomizer ∧
      (finish env pool c r).events =
        r.events ++ (if r.logger.debugLogged then [Event.poolRead c] else []) ∧
      (finish env pool c r).context.logger.debugLogged = r.logger.debugLogged := by
  unfold finish Run.logObjectDebug
  simp only [Run.logDebug_debugLogged]
  cases hdbg : r.logger.debugLogged
  · simp [Run.context, Run.logDebug_randomizer, Run.logDebug_events, Run.logDebug_debugLogged,
      hdbg]
  · simp [Run.poolAt_of_lt _ _ _ hc, Run.context, Run.logDebug_randomizer,
      Run.logDebug_events, Run.logDebug_debugLogged, hdbg]

theorem afterFirstDraw_randomizer (env : Env ρ α) (pool : List α) (ctx : Context ρ α) :
    (afterFirstDraw env pool ctx).randomizer =
      (env.rollInteger ctx.randomizer 0 (poolHigh pool)).2 := by
  simp [afterFirstDraw, Run.logDebug_randomizer, Run.rollInteger, Context.start]

theorem afterFirstDraw_events (env : Env ρ α) (pool : List α) (ctx : Context ρ α) :
    (afterFirstDraw env pool ctx).events =
      [Event.rollInteger 0 (poolHigh pool) (uintCast (env.rollInteger ctx.randomizer 0 (poolHigh pool)).1)] := by
  simp [afterFirstDraw, Run.logDebug_events, Run.rollInteger, Context.start]

theorem afterFirstDraw_debugLogged (env : Env ρ α) (pool : List α) (ctx : Context ρ α) :
    (afterFirstDraw env pool ctx).logger.debugLogged = ctx.logger.debugLogged := by
  simp [afterFirstDraw, Run.logDebug_debugLogged, Run.rollInteger, Context.start]

/-- A call with a positive tournament size is the first draw, then the loop, then the
end of the function. -/
theorem selectOneIndividual_succ (env : Env ρ α) (pool : List α) (n : Nat)
    (ctx : Context ρ α) :
    selectOneIndividual env (n + 1) pool ctx =
      match tournamentLoop env pool n (uintCast (env.rollInteger ctx.randomizer 0 (poolHigh pool)).1)
          (afterFirstDraw env pool ctx) with
      | (Except.error e, r2) =>
        { result := Except.error e, context := r2.context, events := r2.events }
      | (Except.ok lChoosen, r2) => finish env pool lChoosen r2 := by
  unfold selectOneIndividual
  rw [if_pos (Nat.succ_pos n)]
  rfl

theorem foldl_replaceIfWorse_lt (env : Env ρ α) (pool : List α) :
    ∀ (ds : List Nat) (c : Nat), c < pool.length → (∀ d ∈ ds, d < pool.length) →
      ds.foldl (replaceIfWorse env pool) c < pool.length := by
  intro ds
  induction ds with
  | nil => intro c hc _; simpa using hc
  | cons d ds ih =>
    intro c hc hds
    simp only [List.foldl_cons]
    exact ih _ (replaceIfWorse_lt env pool c d hc (hds d (by simp)))
      (fun x hx => hds x (by simp [hx]))

/-- The whole call for a positive tournament size `n + 1` whose draws are positions of the
pool: result, randomizer and observation record. -/
theorem selectOneIndividual_spec (env : Env ρ α) (pool : List α) (n : Nat)
    (ctx : Context ρ α)
    (hd : ∀ d ∈ nextDraws env 0 (poolHigh pool) (n + 1) ctx.randomizer, d < pool.length) :
    (selectOneIndividual env (n + 1) pool ctx).result =
        Except.ok ((nextDraws env 0 (poolHigh pool) n
          (env.rollInteger ctx.randomizer 0 (poolHigh pool)).2).foldl (replaceIfWorse env pool)
            (uintCast (env.rollInteger ctx.randomizer 0 (poolHigh pool)).1)) ∧
      (selectOneIndividual env (n + 1) pool ctx).context.randomizer =
        randomizerAfter env 0 (poolHigh pool) (n + 1) ctx.randomizer ∧
      (selectOneIndividual env (n + 1) pool ctx).events =
        tournamentEvents env pool ctx.logger.debugLogged
          (nextDraws env 0 (poolHigh pool) (n + 1) ctx.randomizer) ∧
      (selectOneIndividual env (n + 1) pool ctx).context.logger.debugLogged =
        ctx.logger.debugLogged := by
  have hd0 : (uintCast (env.rollInteger ctx.randomizer 0 (poolHigh pool)).1) < pool.length :=
    hd _ (by simp [nextDraws])
  have hrest : ∀ d ∈ nextDraws env 0 (poolHigh pool) n
      (env.rollInteger ctx.randomizer 0 (poolHigh pool)).2, d < pool.length := by
    intro d hmem
    exact hd d (by simp [nextDraws, hmem])
  obtain ⟨l1, l2, l3, l4⟩ := tournamentLoop_spec env pool n
    (uintCast (env.rollInteger ctx.randomizer 0 (poolHigh pool)).1) (afterFirstDraw env pool ctx) hd0
    (by rw [afterFirstDraw_randomizer]; exact hrest)
  rw [afterFirstDraw_randomizer] at l1 l2 l3
  rw [afterFirstDraw_events] at l3
  rw [afterFirstDraw_debugLogged] at l4
  have hlt := foldl_replaceIfWorse_lt env pool _ _ hd0 hrest
  rw [selectOneIndividual_succ]
  rcases hres : tournamentLoop env pool n (uintCast (env.rollInteger ctx.randomizer 0 (poolHigh pool)).1)
    (afterFirstDraw env pool ctx) with ⟨res1, r2⟩
  rw [hres] at l1 l2 l3 l4
  simp only at l1 l2 l3 l4
  subst l1
  obtain ⟨f1, f2, f3, f4⟩ := finish_spec env pool _ r2 hlt
  simp only [f1, f2, f3, f4, l2, l3, l4, nextDraws, randomizerAfter, tournamentEvents,
    List.singleton_append, List.cons_append, List.nil_append, List.append_assoc, and_self]

/-! ## Facts that hold for every pool and every randomizer -/

theorem Run.poolAt_events (ioPool : List α) (index : Nat) (r : Run ρ α) :
    (r.poolAt ioPool index).2.events = r.events ++ [Event.poolRead index] := by
  unfold Run.poolAt; split <;> rfl

theorem Run.poolAt_randomizer (ioPool : List α) (index : Nat) (r : Run ρ α) :
    (r.poolAt ioPool index).2.randomizer = r.randomizer := by
  unfold Run.poolAt; split <;> rfl

theorem Run.poolAt_error (ioPool : List α) (index : Nat) (r : Run ρ α) (e : Failure)
    (h : (r.poolAt ioPool index).1 = Except.error e) :
    e = Failure.boundCheck index ioPool.length := by
  unfold Run.poolAt at h
  split at h
  · cases h
  · injection h with h; exact h.symm

/-- A pass of the loop body only adds to the observation record, starting with its draw. -/
theorem tournamentStep_events_extend (env : Env ρ α) (pool : List α) (c : Nat) (r : Run ρ α) :
    (r.events ++ [Event.rollInteger 0 (poolHigh pool)
        (uintCast (env.rollInteger r.randomizer 0 (poolHigh pool)).1)]) <+:
      (tournamentStep env pool c r).2.events := by
  unfold tournamentStep
  simp only []
  split
  · rename_i e r1 heq
    have h := congrArg (fun x => x.2.events) heq
    simp only [Run.poolAt_events, Run.rollInteger] at h
    rw [← h]
    exact List.prefix_append _ _
  · rename_i tried r1 heq
    have h := congrArg (fun x => x.2.events) heq
    simp only [Run.poolAt_events, Run.rollInteger] at h
    split
    · rename_i e r2 heq2
      have h2 := congrArg (fun x => x.2.events) heq2
      simp only [Run.poolAt_events] at h2
      rw [← h2, ← h]
      simp only [List.append_assoc, List.prefix_append_right_inj]
      exact List.prefix_append _ _
    · rename_i chosen r2 heq2
      have h2 := congrArg (fun x => x.2.events) heq2
      simp only [Run.poolAt_events] at h2
      split <;>
        (simp only [Run.logDebug_events]
         rw [← h2, ← h]
         simp only [List.append_assoc, List.prefix_append_right_inj]
         exact List.prefix_append _ _)

/-- A pass of the loop body fails only by reading the pool outside its positions. -/
theorem tournamentStep_error (env : Env ρ α) (pool : List α) (c : Nat) (r : Run ρ α)
    (e : Failure) (h : (tournamentStep env pool c r).1 = Except.error e) :
    ∃ index, e = Failure.boundCheck index pool.length := by
  unfold tournamentStep at h
  simp only [] at h
  split at h
  · rename_i e1 r1 heq
    have h1 := congrArg (fun x => x.1) heq
    simp only at h1
    simp only at h
    injection h with h
    subst h
    exact ⟨_, Run.poolAt_error _ _ _ _ h1⟩
  · rename_i tried r1 heq
    split at h
    · rename_i e2 r2 heq2
      have h2 := congrArg (fun x => x.1) heq2
      simp only at h2
      simp only at h
      injection h with h
      subst h
      exact ⟨_, Run.poolAt_error _ _ _ _ h2⟩
    · split at h <;> cases h

theorem tournamentLoop_events_extend (env : Env ρ α) (pool : List α) :
    ∀ (n c : Nat) (r : Run ρ α), r.events <+: (tournamentLoop env pool n c r).2.events := by
  intro n
  induction n with
  | zero => intro c r; simp [tournamentLoop]
  | succ n ih =>
    intro c r
    have hstep := tournamentStep_events_extend env pool c r
    have hpre : r.events <+: (tournamentStep env pool c r).2.events :=
      (List.prefix_append _ _).trans hstep
    simp only [tournamentLoop]
    rcases hres : tournamentStep env pool c r with ⟨res, r1⟩
    rw [hres] at hpre
    cases res with
    | error e => exact hpre
    | ok c1 => exact hpre.trans (ih c1 r1)

theorem tournamentLoop_error (env : Env ρ α) (pool : List α) :
    ∀ (n c : Nat) (r : Run ρ α) (e : Failure),
      (tournamentLoop env pool n c r).1 = Except.error e →
      ∃ index, e = Failure.boundCheck index pool.length := by
  intro n
  induction n with
  | zero => intro c r e h; simp [tournamentLoop] at h
  | succ n ih =>
    intro c r e h
    have hstep := tournamentStep_error env pool c r
    simp only [tournamentLoop] at h
    rcases hres : tournamentStep env pool c r with ⟨res, r1⟩
    rw [hres] at h hstep
    cases res with
    | error e1 =>
      simp only at h
      injection h with h
      exact hstep e (by rw [h])
    | ok c1 => exact ih c1 r1 e h

theorem finish_events_extend (env : Env ρ α) (pool : List α) (c : Nat) (r : Run ρ α) :
    r.events <+: (finish env pool c r).events := by
  unfold finish Run.logObjectDebug
  simp only [Run.logDebug_debugLogged]
  cases hdbg : r.logger.debugLogged
  · simp [Run.logDebug_events]
  · simp only [if_true]
    have hev := Run.poolAt_events pool c (r.logDebug
      ("Selecting the " ++ env.uint2ordinal (uintAdd c 1) ++ " individual"))
    rw [Run.logDebug_events] at hev
    rcases hres : Run.poolAt pool c (r.logDebug
      ("Selecting the " ++ env.uint2ordinal (uintAdd c 1) ++ " individual")) with ⟨res, r1⟩
    rw [hres] at hev
    simp only at hev
    cases res with
    | error e => simp only [hev]; exact List.prefix_append _ _
    | ok a => simp only [hev]; exact List.prefix_append _ _

theorem finish_error (env : Env ρ α) (pool : List α) (c : Nat) (r : Run ρ α) (e : Failure)
    (h : (finish env pool c r).result = Except.error e) :
    ∃ index, e = Failure.boundCheck index pool.length := by
  unfold finish Run.logObjectDebug at h
  simp only [Run.logDebug_debugLogged] at h
  cases hdbg : r.logger.debugLogged
  · simp [hdbg] at h
  · simp only [hdbg, if_true] at h
    have herr := Run.poolAt_error pool c (r.logDebug
      ("Selecting the " ++ env.uint2ordinal (uintAdd c 1) ++ " individual"))
    rcases hres : Run.poolAt pool c (r.logDebug
      ("Selecting the " ++ env.uint2ordinal (uintAdd c 1) ++ " individual")) with ⟨res, r1⟩
    rw [hres] at h herr
    cases res with
    | error e1 =>
      simp only at h
      injection h with h
      exact ⟨c, herr e (by rw [h])⟩
    | ok a => simp at h

/-- A call with a positive tournament size fails only by reading the pool outside its
positions: the validation of the parameter does not fail. -/
theorem selectOneIndividual_succ_error (env : Env ρ α) (pool : List α) (n : Nat)
    (ctx : Context ρ α) (e : Failure)
    (h : (selectOneIndividual env (n + 1) pool ctx).result = Except.error e) :
    ∃ index, e = Failure.boundCheck index pool.length := by
  rw [selectOneIndividual_succ] at h
  have hloop := tournamentLoop_error env pool n
    (uintCast (env.rollInteger ctx.randomizer 0 (poolHigh pool)).1) (afterFirstDraw env pool ctx)
  rcases hres : tournamentLoop env pool n (uintCast (env.rollInteger ctx.randomizer 0 (poolHigh pool)).1)
    (afterFirstDraw env pool ctx) with ⟨res, r2⟩
  rw [hres] at h hloop
  cases res with
  | error e1 =>
    simp only at h
    injection h with h
    exact hloop e (by rw [h])
  | ok c => exact finish_error env pool c r2 e h

/-- A call with a positive tournament size starts by drawing over `[0, poolHigh]`. -/
theorem selectOneIndividual_succ_events_extend (env : Env ρ α) (pool : List α) (n : Nat)
    (ctx : Context ρ α) :
    [Event.rollInteger 0 (poolHigh pool) (uintCast (env.rollInteger ctx.randomizer 0 (poolHigh pool)).1)] <+:
      (selectOneIndividual env (n + 1) pool ctx).events := by
  rw [selectOneIndividual_succ]
  have hloop := tournamentLoop_events_extend env pool n
    (uintCast (env.rollInteger ctx.randomizer 0 (poolHigh pool)).1) (afterFirstDraw env pool ctx)
  rw [afterFirstDraw_events] at hloop
  rcases hres : tournamentLoop env pool n (uintCast (env.rollInteger ctx.randomizer 0 (poolHigh pool)).1)
    (afterFirstDraw env pool ctx) with ⟨res, r2⟩
  rw [hres] at hloop
  cases res with
  | error e1 => exact hloop
  | ok c => exact hloop.trans (finish_events_extend env pool c r2)

/-! ## The range of the draws -/

theorem poolHigh_nil : poolHigh ([] : List α) = 4294967295 := by
  simp [poolHigh, uintSub, uintCast, uintRange]

/-- For a pool that is not empty the upper end of the range is a position of the pool. -/
theorem poolHigh_lt (pool : List α) (hne : pool ≠ []) : poolHigh pool < pool.length := by
  have hlen : 0 < pool.length := List.length_pos.mpr hne
  simp only [poolHigh, uintSub, uintCast, uintRange]
  omega

/-- For a pool whose size is an `unsigned int` the range of the draws ends at `size - 1`. -/
theorem poolHigh_eq (pool : List α) (hne : pool ≠ []) (hfit : pool.length < 2 ^ 32) :
    poolHigh pool = pool.length - 1 := by
  have hlen : 0 < pool.length := List.length_pos.mpr hne
  simp only [poolHigh, uintSub, uintCast, uintRange]
  omega

/-- A value that fits an `unsigned int` is stored as it is. -/
theorem uintCast_of_lt (n : Nat) (h : n < 2 ^ 32) : uintCast n = n :=
  Nat.mod_eq_of_lt h

theorem uintCast_lt (n : Nat) : uintCast n < 2 ^ 32 :=
  Nat.mod_lt _ (by decide)

/-- Every draw, as the `unsigned int` it is stored in, is below `2 ^ 32`. -/
theorem nextDraws_unsigned (env : Env ρ α) (inLow inHigh : Nat) :
    ∀ (n : Nat) (s : ρ), ∀ d ∈ nextDraws env inLow inHigh n s, d < 2 ^ 32 := by
  intro n
  induction n with
  | zero => intro s d hd; simp [nextDraws] at hd
  | succ n ih =>
    intro s d hd
    simp only [nextDraws, List.mem_cons] at hd
    rcases hd with rfl | hd
    · exact uintCast_lt _
    · exact ih _ d hd

theorem nextDraws_le (env : Env ρ α) (hroll : RollsInRange env) (inHigh : Nat) :
    ∀ (n : Nat) (s : ρ), ∀ d ∈ nextDraws env 0 inHigh n s, d ≤ inHigh := by
  intro n
  induction n with
  | zero => intro s d hd; simp [nextDraws] at hd
  | succ n ih =>
    intro s d hd
    simp only [nextDraws, List.mem_cons] at hd
    rcases hd with rfl | hd
    · exact Nat.le_trans (Nat.mod_le _ _) (hroll s 0 inHigh (Nat.zero_le _)).2
    · exact ih _ d hd

theorem nextDraws_lt_length (env : Env ρ α) (hroll : RollsInRange env) (pool : List α)
    (hne : pool ≠ []) (n : Nat) (s : ρ) :
    ∀ d ∈ nextDraws env 0 (poolHigh pool) n s, d < pool.length :=
  fun d hd => Nat.lt_of_le_of_lt (nextDraws_le env hroll _ n s d hd) (poolHigh_lt pool hne)

theorem nextDraws_length (env : Env ρ α) (inLow inHigh : Nat) :
    ∀ (n : Nat) (s : ρ), (nextDraws env inLow inHigh n s).length = n := by
  intro n
  induction n with
  | zero => intro s; rfl
  | succ n ih => intro s; simp [nextDraws, ih]

/-! ## The fold of the replacement rule -/

theorem isWorseAt_irrefl (env : Env ρ α) (pool : List α)
    (hirr : ∀ a, env.isLess a a = false) (d : Nat) : isWorseAt env pool d d = false := by
  unfold isWorseAt
  cases pool[d]? <;> simp [hirr]

theorem isWorseAt_trans (env : Env ρ α) (pool : List α)
    (htrans : ∀ a b c, env.isLess a b = true → env.isLess b c = true → env.isLess a c = true)
    (x y z : Nat) (hxy : isWorseAt env pool x y = true) (hyz : isWorseAt env pool y z = true) :
    isWorseAt env pool x z = true := by
  unfold isWorseAt at hxy hyz ⊢
  cases hx : pool[x]? <;> cases hy : pool[y]? <;> cases hz : pool[z]? <;>
    simp [hx, hy, hz] at hxy hyz ⊢
  exact htrans _ _ _ hxy hyz

/-- Under a strict partial order the fold ends on the start or on something strictly worse
than the start, and nothing it went through is strictly worse than where it ends. -/
theorem foldl_replaceIfWorse_worst (env : Env ρ α) (pool : List α)
    (hirr : ∀ a, env.isLess a a = false)
    (htrans : ∀ a b c, env.isLess a b = true → env.isLess b c = true → env.isLess a c = true) :
    ∀ (ds : List Nat) (c : Nat),
      (ds.foldl (replaceIfWorse env pool) c = c ∨
          isWorseAt env pool (ds.foldl (replaceIfWorse env pool) c) c = true) ∧
        ∀ d ∈ ds, isWorseAt env pool d (ds.foldl (replaceIfWorse env pool) c) = false := by
  intro ds
  induction ds with
  | nil => intro c; simp
  | cons d ds ih =>
    intro c
    simp only [List.foldl_cons, List.mem_cons]
    obtain ⟨hle, hall⟩ := ih (replaceIfWorse env pool c d)
    have hirr' := isWorseAt_irrefl env pool hirr
    have htrans' := isWorseAt_trans env pool htrans
    by_cases hdc : isWorseAt env pool d c = true
    · have hrep : replaceIfWorse env pool c d = d := by simp [replaceIfWorse, hdc]
      rw [hrep] at hle hall ⊢
      refine ⟨?_, ?_⟩
      · rcases hle with h | h
        · right; rw [h]; exact hdc
        · right; exact htrans' _ _ _ h hdc
      · intro x hx
        rcases hx with rfl | hx
        · rcases hle with h | h
          · rw [h]; exact hirr' _
          · cases hxf : isWorseAt env pool x (List.foldl (replaceIfWorse env pool) x ds)
            · rfl
            · have := htrans' _ _ _ hxf h
              rw [hirr'] at this
              cases this
        · exact hall x hx
    · have hrep : replaceIfWorse env pool c d = c := by simp [replaceIfWorse, hdc]
      rw [hrep] at hle hall ⊢
      refine ⟨hle, ?_⟩
      intro x hx
      rcases hx with rfl | hx
      · rcases hle with h | h
        · rw [h]; simpa using hdc
        · cases hxf : isWorseAt env pool x (List.foldl (replaceIfWorse env pool) c ds)
          · rfl
          · exact absurd (htrans' _ _ _ hxf h) hdc
      · exact hall x hx

/-- When nothing that is tried is strictly worse than the candidate, the candidate stays. -/
theorem foldl_replaceIfWorse_ties (env : Env ρ α) (pool : List α) :
    ∀ (ds : List Nat) (c : Nat), (∀ d ∈ ds, isWorseAt env pool d c = false) →
      ds.foldl (replaceIfWorse env pool) c = c := by
  intro ds
  induction ds with
  | nil => intro c _; rfl
  | cons d ds ih =>
    intro c h
    have hd : isWorseAt env pool d c = false := h d (by simp)
    simp only [List.foldl_cons, replaceIfWorse, hd]
    exact ih c (fun x hx => h x (by simp [hx]))

/-- With a scalar key `g` deciding the replacement, the fold from `c` over `ds` either
stays on `c`, which is then no larger than anything in `ds`, or ends on the first position
of `ds` that holds the smallest key, which is then strictly smaller than the key of `c`. -/
theorem foldl_replaceIfWorse_first_min {β : Type} [LinearOrder β] (env : Env ρ α)
    (pool : List α) (g : Nat → β)
    (hg : ∀ d c, d < pool.length → c < pool.length →
      (isWorseAt env pool d c = true ↔ g d < g c)) :
    ∀ (ds : List Nat) (c : Nat), c < pool.length → (∀ d ∈ ds, d < pool.length) →
      (ds.foldl (replaceIfWorse env pool) c = c ∧ ∀ d ∈ ds, g c ≤ g d) ∨
      (∃ j, j < ds.length ∧ ds[j]? = some (ds.foldl (replaceIfWorse env pool) c) ∧
        g (ds.foldl (replaceIfWorse env pool) c) < g c ∧
        (∀ i di, i < j → ds[i]? = some di → g (ds.foldl (replaceIfWorse env pool) c) < g di) ∧
        (∀ d ∈ ds, g (ds.foldl (replaceIfWorse env pool) c) ≤ g d)) := by
  intro ds
  induction ds with
  | nil => intro c _ _; left; simp
  | cons d ds ih =>
    intro c hc hds
    have hd : d < pool.length := hds d (by simp)
    have hrest : ∀ x ∈ ds, x < pool.length := fun x hx => hds x (by simp [hx])
    simp only [List.foldl_cons]
    by_cases hdc : g d < g c
    · have hrep : replaceIfWorse env pool c d = d := by
        simp [replaceIfWorse, (hg d c hd hc).mpr hdc]
      rw [hrep]
      right
      rcases ih d hd hrest with ⟨hf, hmin⟩ | ⟨j, hj, hjf, hlt, hbefore, hmin⟩
      · refine ⟨0, by simp, by simp [hf], by rw [hf]; exact hdc, ?_, ?_⟩
        · intro i di hi; omega
        · intro x hx
          rw [hf]
          rcases List.mem_cons.mp hx with rfl | hx
          · exact le_refl _
          · exact hmin x hx
      · refine ⟨j + 1, by simpa using hj, by simpa using hjf, lt_trans hlt hdc, ?_, ?_⟩
        · intro i di hi hget
          cases i with
          | zero => simp at hget; subst hget; exact hlt
          | succ i => exact hbefore i di (by omega) (by simpa using hget)
        · intro x hx
          rcases List.mem_cons.mp hx with rfl | hx
          · exact le_of_lt hlt
          · exact hmin x hx
    · have hrep : replaceIfWorse env pool c d = c := by
        have : ¬ isWorseAt env pool d c = true := fun h => hdc ((hg d c hd hc).mp h)
        simp [replaceIfWorse, this]
      rw [hrep]
      have hcd : g c ≤ g d := not_lt.mp hdc
      rcases ih c hc hrest with ⟨hf, hmin⟩ | ⟨j, hj, hjf, hlt, hbefore, hmin⟩
      · left
        refine ⟨hf, ?_⟩
        intro x hx
        rcases List.mem_cons.mp hx with rfl | hx
        · exact hcd
        · exact hmin x hx
      · right
        refine ⟨j + 1, by simpa using hj, by simpa using hjf, hlt, ?_, ?_⟩
        · intro i di hi hget
          cases i with
          | zero => simp at hget; subst hget; exact lt_of_lt_of_le hlt hcd
          | succ i => exact hbefore i di (by omega) (by simpa using hget)
        · intro x hx
          rcases List.mem_cons.mp hx with rfl | hx
          · exact le_trans (le_of_lt hlt) hcd
          · exact hmin x hx

/-! ## The observation record of a tournament -/

theorem loopEvents_poolRead_lt (env : Env ρ α) (pool : List α) :
    ∀ (ds : List Nat) (c : Nat), c < pool.length → (∀ d ∈ ds, d < pool.length) →
      ∀ j, Event.poolRead j ∈ loopEvents env pool c ds → j < pool.length := by
  intro ds
  induction ds with
  | nil => intro c _ _ j hj; simp [loopEvents] at hj
  | cons d ds ih =>
    intro c hc hds j hj
    have hd : d < pool.length := hds d (by simp)
    simp only [loopEvents, stepEvents, List.mem_append, List.mem_cons, Event.poolRead.injEq,
      List.mem_singleton, reduceCtorEq, false_or, or_false, List.not_mem_nil] at hj
    rcases hj with (rfl | rfl) | hj
    · exact hd
    · exact hc
    · exact ih _ (replaceIfWorse_lt env pool c d hc hd) (fun x hx => hds x (by simp [hx])) j hj

theorem tournamentEvents_poolRead_lt (env : Env ρ α) (pool : List α) (debugLogged : Bool)
    (draws : List Nat) (hdraws : ∀ d ∈ draws, d < pool.length) :
    ∀ j, Event.poolRead j ∈ tournamentEvents env pool debugLogged draws → j < pool.length := by
  intro j hj
  cases draws with
  | nil => simp [tournamentEvents] at hj
  | cons d0 later =>
    have hd0 : d0 < pool.length := hdraws d0 (by simp)
    have hlater : ∀ d ∈ later, d < pool.length := fun x hx => hdraws x (by simp [hx])
    simp only [tournamentEvents, List.mem_cons, reduceCtorEq, false_or, List.mem_append] at hj
    rcases hj with hj | hj
    · exact loopEvents_poolRead_lt env pool later d0 hd0 hlater j hj
    · cases debugLogged
      · simp at hj
      · simp only [if_true, List.mem_singleton, Event.poolRead.injEq] at hj
        rw [hj]
        exact foldl_replaceIfWorse_lt env pool later d0 hd0 hlater

/-- The draws and comparisons of a tournament do not depend on whether debug logging is
active. -/
theorem tournamentEvents_filter (env : Env ρ α) (pool : List α) (b1 b2 : Bool)
    (draws : List Nat) :
    (tournamentEvents env pool b1 draws).filter (fun e => !e.isPoolRead) =
      (tournamentEvents env pool b2 draws).filter (fun e => !e.isPoolRead) := by
  cases draws with
  | nil => rfl
  | cons d0 later =>
    cases b1 <;> cases b2 <;>
      simp [tournamentEvents, List.filter_append, Event.isPoolRead]

theorem rangedEnv_rollsInRange : RollsInRange rangedEnv := by
  intro s inLow inHigh hle
  cases s with
  | nil => exact ⟨le_refl _, hle⟩
  | cons d ds =>
    have hmod : d % (inHigh - inLow + 1) < inHigh - inLow + 1 := Nat.mod_lt _ (Nat.succ_pos _)
    simp only [rangedEnv, rangedRoll]
    omega

/-! ## The claims -/

/-- C1: for a pool that is not empty, a tournament size `k ≥ 1` and draws that are all
positions of the pool, `selectOneIndividual` returns the left fold over the `k` draws that
starts with the first draw as candidate and, for each later draw `d`, replaces the
candidate by `d` exactly when the individual at `d` `isLess` the individual at the
candidate. -/
theorem selectOneIndividual_eq_worstOfDraws (env : Env ρ α) (k : Nat) (pool : List α)
    (ctx : Context ρ α) (hne : pool ≠ []) (hk : 1 ≤ k)
    (hdraws : ∀ d ∈ nextDraws env 0 (poolHigh pool) k ctx.randomizer, d < pool.length) :
    ∃ i, worstOfDraws env pool (nextDraws env 0 (poolHigh pool) k ctx.randomizer) = some i ∧
      (selectOneIndividual env k pool ctx).result = Except.ok i := by
  have _ := hne
  obtain ⟨n, rfl⟩ : ∃ n, k = n + 1 := ⟨k - 1, by omega⟩
  exact ⟨_, by simp [nextDraws, worstOfDraws], (selectOneIndividual_spec env pool n ctx hdraws).1⟩

/-- C1, the scenario of the specification: pool fitnesses `[10, 2, 7, 9, 1]`, `k = 3` and
draws `[0, 4, 2]` give index `4`. -/
theorem selectOneIndividual_scenario :
    nextDraws fitnessEnv 0 (poolHigh [10, 2, 7, 9, 1]) 3 [0, 4, 2] = [0, 4, 2] ∧
      (selectOneIndividual fitnessEnv 3 [10, 2, 7, 9, 1] (scriptedContext [0, 4, 2] true)).result
        = Except.ok 4 := by
  refine ⟨by decide, ?_⟩
  obtain ⟨i, hi, hres⟩ := selectOneIndividual_eq_worstOfDraws fitnessEnv 3 [10, 2, 7, 9, 1]
    (scriptedContext [0, 4, 2] true) (by decide) (by decide) (by decide)
  have h4 : worstOfDraws fitnessEnv [10, 2, 7, 9, 1]
      (nextDraws fitnessEnv 0 (poolHigh [10, 2, 7, 9, 1]) 3
        (scriptedContext [0, 4, 2] true).randomizer) = some 4 := by decide
  rw [h4] at hi
  injection hi with hi
  rw [hres, ← hi]

/-- C2, worst of the sample: for a pool that is not empty, `k ≥ 1` and draws that are all
positions of the pool, when `isLess` is irreflexive and transitive the individual at the
returned index is not strictly better than any sampled individual: for no drawn index `d`
does `pool[d].isLess(pool[result])` hold. -/
theorem selectOneIndividual_worst_of_sample (env : Env ρ α) (k : Nat) (pool : List α)
    (ctx : Context ρ α) (hne : pool ≠ []) (hk : 1 ≤ k)
    (hdraws : ∀ d ∈ nextDraws env 0 (poolHigh pool) k ctx.randomizer, d < pool.length)
    (hirr : ∀ a, env.isLess a a = false)
    (htrans : ∀ a b c, env.isLess a b = true → env.isLess b c = true → env.isLess a c = true) :
    ∃ (i : Nat) (hi : i < pool.length),
      (selectOneIndividual env k pool ctx).result = Except.ok i ∧
      ∀ (d : Nat) (hd : d < pool.length),
        d ∈ nextDraws env 0 (poolHigh pool) k ctx.randomizer →
          env.isLess pool[d] pool[i] = false := by
  have _ := hne
  obtain ⟨n, rfl⟩ : ∃ n, k = n + 1 := ⟨k - 1, by omega⟩
  have hd0 : (uintCast (env.rollInteger ctx.randomizer 0 (poolHigh pool)).1) < pool.length :=
    hdraws _ (by simp [nextDraws])
  have hrest : ∀ d ∈ nextDraws env 0 (poolHigh pool) n
      (env.rollInteger ctx.randomizer 0 (poolHigh pool)).2, d < pool.length :=
    fun d hmem => hdraws d (by simp [nextDraws, hmem])
  have hlt := foldl_replaceIfWorse_lt env pool _ _ hd0 hrest
  obtain ⟨hle, hall⟩ := foldl_replaceIfWorse_worst env pool hirr htrans
    (nextDraws env 0 (poolHigh pool) n (env.rollInteger ctx.randomizer 0 (poolHigh pool)).2)
    (uintCast (env.rollInteger ctx.randomizer 0 (poolHigh pool)).1)
  refine ⟨_, hlt, (selectOneIndividual_spec env pool n ctx hdraws).1, ?_⟩
  intro d hd hmem
  rw [← isWorseAt_of_lt env pool d _ hd hlt]
  simp only [nextDraws, List.mem_cons] at hmem
  rcases hmem with rfl | hmem
  · rcases hle with h | h
    · rw [h]; exact isWorseAt_irrefl env pool hirr _
    · cases hxf : isWorseAt env pool (uintCast (env.rollInteger ctx.randomizer 0 (poolHigh pool)).1)
          (List.foldl (replaceIfWorse env pool) (uintCast (env.rollInteger ctx.randomizer 0 (poolHigh pool)).1)
            (nextDraws env 0 (poolHigh pool) n (env.rollInteger ctx.randomizer 0 (poolHigh pool)).2))
      · rfl
      · have := isWorseAt_trans env pool htrans _ _ _ hxf h
        rw [isWorseAt_irrefl env pool hirr] at this
        cases this
  · exact hall d hmem

/-- C2 at the pool `[10, 2, 7, 9, 1]` with draws `[0, 4, 2]`. -/
theorem selectOneIndividual_worst_of_sample_witness :
    ∃ (i : Nat) (hi : i < [10, 2, 7, 9, 1].length),
      (selectOneIndividual fitnessEnv 3 [10, 2, 7, 9, 1]
        (scriptedContext [0, 4, 2] false)).result = Except.ok i ∧
      ∀ (d : Nat) (hd : d < [10, 2, 7, 9, 1].length),
        d ∈ nextDraws fitnessEnv 0 (poolHigh [10, 2, 7, 9, 1]) 3 [0, 4, 2] →
          fitnessEnv.isLess [10, 2, 7, 9, 1][d] [10, 2, 7, 9, 1][i] = false :=
  selectOneIndividual_worst_of_sample fitnessEnv 3 [10, 2, 7, 9, 1]
    (scriptedContext [0, 4, 2] false) (by decide) (by decide) (by decide)
    (by intro a; simp [fitnessEnv])
    (by intro a b c hab hbc; simp only [fitnessEnv, decide_eq_true_eq] at *; omega)

/-- C3: for a pool that is not empty and `k ≥ 1`, with a randomizer whose
`rollInteger(lo, hi)` answers within `[lo, hi]`, the returned index is a position of the
pool, and so is every index at which the pool is read during the call. -/
theorem selectOneIndividual_index_in_range (env : Env ρ α) (k : Nat) (pool : List α)
    (ctx : Context ρ α) (hne : pool ≠ []) (hk : 1 ≤ k) (hroll : RollsInRange env) :
    ∃ i, (selectOneIndividual env k pool ctx).result = Except.ok i ∧ i < pool.length ∧
      ∀ j, Event.poolRead j ∈ (selectOneIndividual env k pool ctx).events → j < pool.length := by
  obtain ⟨n, rfl⟩ : ∃ n, k = n + 1 := ⟨k - 1, by omega⟩
  have hdraws := nextDraws_lt_length env hroll pool hne (n + 1) ctx.randomizer
  obtain ⟨h1, _, h3, _⟩ := selectOneIndividual_spec env pool n ctx hdraws
  refine ⟨_, h1, ?_, ?_⟩
  · exact foldl_replaceIfWorse_lt env pool _ _ (hdraws _ (by simp [nextDraws]))
      (fun d hmem => hdraws d (by simp [nextDraws, hmem]))
  · intro j hj
    rw [h3] at hj
    exact tournamentEvents_poolRead_lt env pool _ _ hdraws j hj

/-- C3 at the pool `[10, 2, 7, 9, 1]` with the raw values `[5, 14, 7]` brought into range. -/
theorem selectOneIndividual_index_in_range_witness :
    ∃ i, (selectOneIndividual rangedEnv 3 [10, 2, 7, 9, 1]
        (scriptedContext [5, 14, 7] true)).result = Except.ok i ∧ i < [10, 2, 7, 9, 1].length ∧
      ∀ j, Event.poolRead j ∈ (selectOneIndividual rangedEnv 3 [10, 2, 7, 9, 1]
        (scriptedContext [5, 14, 7] true)).events → j < [10, 2, 7, 9, 1].length :=
  selectOneIndividual_index_in_range rangedEnv 3 [10, 2, 7, 9, 1]
    (scriptedContext [5, 14, 7] true) (by decide) (by decide) rangedEnv_rollsInRange

/-- C4: with tournament size `0` the call fails with the validation error of the parameter
`ec.sel.worsttournsize` for every pool, empty or not, before any sampling: the context is
left as it was, no draw is requested and no individual is read or compared. For a
positive tournament size the validation never fails. -/
theorem selectOneIndividual_validates_size (env : Env ρ α) (pool : List α)
    (ctx : Context ρ α) :
    selectOneIndividual env 0 pool ctx =
        { result := Except.error (Failure.validateParameter "ec.sel.worsttournsize" ">0"),
          context := ctx, events := [] } ∧
      ∀ k, 0 < k → ∀ name constraint, (selectOneIndividual env k pool ctx).result ≠
        Except.error (Failure.validateParameter name constraint) := by
  refine ⟨by simp [selectOneIndividual], ?_⟩
  intro k hk name constraint h
  obtain ⟨n, rfl⟩ : ∃ n, k = n + 1 := ⟨k - 1, by omega⟩
  obtain ⟨index, hindex⟩ := selectOneIndividual_succ_error env pool n ctx _ h
  cases hindex

/-- C5 as stated fails: with an empty pool, `k = 1`, debug logging inactive and a
randomizer that answers `7` within the range `[0, 4294967295]` it is asked for, the call
does not fail; it returns `7`, which is not a position of the empty pool. -/
theorem selectOneIndividual_empty_pool_returns :
    (selectOneIndividual rangedEnv 1 ([] : List Nat) (scriptedContext [7] false)).result
        = Except.ok 7 ∧
      (selectOneIndividual rangedEnv 1 ([] : List Nat) (scriptedContext [7] false)).events
        = [Event.rollInteger 0 4294967295 7] ∧
      ¬ 7 < ([] : List Nat).length :=
  ⟨rfl, by decide, by decide⟩

/-- C5 amended: with an empty pool and `k > 0` the empty pool is not detected before
sampling. The validation of the parameter does not fail, the call starts by requesting a
draw over the wrapped range `[0, 4294967295]`, and with `k = 1` and debug logging inactive
the drawn value, as the `unsigned int lChoosenIndividual` holds it, is returned as the
index. -/
theorem selectOneIndividual_empty_pool (env : Env ρ α) (k : Nat) (ctx : Context ρ α)
    (hk : 0 < k) :
    (∀ name constraint, (selectOneIndividual env k ([] : List α) ctx).result ≠
        Except.error (Failure.validateParameter name constraint)) ∧
      [Event.rollInteger 0 4294967295
          (uintCast (env.rollInteger ctx.randomizer 0 4294967295).1)] <+:
        (selectOneIndividual env k ([] : List α) ctx).events ∧
      (k = 1 → ctx.logger.debugLogged = false →
        (selectOneIndividual env k ([] : List α) ctx).result =
          Except.ok (uintCast (env.rollInteger ctx.randomizer 0 4294967295).1)) := by
  obtain ⟨n, rfl⟩ : ∃ n, k = n + 1 := ⟨k - 1, by omega⟩
  refine ⟨?_, ?_, ?_⟩
  · intro name constraint h
    obtain ⟨index, hindex⟩ := selectOneIndividual_succ_error env [] n ctx _ h
    cases hindex
  · have h := selectOneIndividual_succ_events_extend env ([] : List α) n ctx
    rw [poolHigh_nil] at h
    exact h
  · intro h1 hdbg
    have hn : n = 0 := by omega
    subst hn
    rw [selectOneIndividual_succ]
    simp [tournamentLoop, finish, Run.logObjectDebug, Run.logDebug_debugLogged,
      afterFirstDraw_debugLogged, hdbg, poolHigh_nil]

/-- C5 amended, at an empty pool with `k = 1` and the draw `7`. -/
theorem selectOneIndividual_empty_pool_witness :
    (∀ name constraint, (selectOneIndividual rangedEnv 1 ([] : List Nat)
        (scriptedContext [7] false)).result ≠
        Except.error (Failure.validateParameter name constraint)) ∧
      [Event.rollInteger 0 4294967295
          (uintCast (rangedEnv.rollInteger (scriptedContext [7] false).randomizer 0
            4294967295).1)] <+:
        (selectOneIndividual rangedEnv 1 ([] : List Nat) (scriptedContext [7] false)).events ∧
      (1 = 1 → (scriptedContext [7] false).logger.debugLogged = false →
        (selectOneIndividual rangedEnv 1 ([] : List Nat) (scriptedContext [7] false)).result =
          Except.ok (uintCast (rangedEnv.rollInteger (scriptedContext [7] false).randomizer 0
            4294967295).1)) :=
  selectOneIndividual_empty_pool rangedEnv 1 (scriptedContext [7] false) (by decide)

/-- C6, tie-break: for a pool that is not empty, `k ≥ 1` and draws that are all positions
of the pool, if `isLess` holds between no two of the `k` sampled individuals (the
individuals at two different places of the draw sequence), the first drawn index is
returned. -/
theorem selectOneIndividual_ties_first (env : Env ρ α) (k : Nat) (pool : List α)
    (ctx : Context ρ α) (hne : pool ≠ []) (hk : 1 ≤ k)
    (hdraws : ∀ d ∈ nextDraws env 0 (poolHigh pool) k ctx.randomizer, d < pool.length)
    (hties : ∀ (i j d c : Nat) (hd : d < pool.length) (hc : c < pool.length), i ≠ j →
      (nextDraws env 0 (poolHigh pool) k ctx.randomizer)[i]? = some d →
      (nextDraws env 0 (poolHigh pool) k ctx.randomizer)[j]? = some c →
      env.isLess pool[d] pool[c] = false) :
    ∃ d0, (nextDraws env 0 (poolHigh pool) k ctx.randomizer).head? = some d0 ∧
      (selectOneIndividual env k pool ctx).result = Except.ok d0 := by
  have _ := hne
  obtain ⟨n, rfl⟩ : ∃ n, k = n + 1 := ⟨k - 1, by omega⟩
  refine ⟨(uintCast (env.rollInteger ctx.randomizer 0 (poolHigh pool)).1), by simp [nextDraws], ?_⟩
  have hd0 : (uintCast (env.rollInteger ctx.randomizer 0 (poolHigh pool)).1) < pool.length :=
    hdraws _ (by simp [nextDraws])
  rw [(selectOneIndividual_spec env pool n ctx hdraws).1]
  congr 1
  apply foldl_replaceIfWorse_ties
  intro d hmem
  have hd : d < pool.length := hdraws d (by simp [nextDraws, hmem])
  obtain ⟨j, hj⟩ := List.getElem?_of_mem hmem
  rw [isWorseAt_of_lt env pool d _ hd hd0]
  exact hties (j + 1) 0 d _ hd hd0 (by omega) (by simpa [nextDraws] using hj)
    (by simp [nextDraws])

/-- C6 at a pool of three equally fit individuals with draws `[2, 0, 1]`. -/
theorem selectOneIndividual_ties_first_witness :
    ∃ d0, (nextDraws fitnessEnv 0 (poolHigh [5, 5, 5]) 3
        (scriptedContext [2, 0, 1] false).randomizer).head? = some d0 ∧
      (selectOneIndividual fitnessEnv 3 [5, 5, 5] (scriptedContext [2, 0, 1] false)).result
        = Except.ok d0 :=
  selectOneIndividual_ties_first fitnessEnv 3 [5, 5, 5] (scriptedContext [2, 0, 1] false)
    (by decide) (by decide) (by decide)
    (by
      intro i j d c hd hc _ _ _
      have h5 : ∀ (i : Nat) (h : i < [5, 5, 5].length), [5, 5, 5][i] = 5 := by decide
      simp [fitnessEnv, h5])

/-- With individuals ordered by a scalar fitness, the fold over the draws `d0 :: later`
ends on the draw at the first position that holds the smallest fitness of the sample. -/
theorem worstOfDraws_first_min {β : Type} [LinearOrder β] (env : Env ρ α) (pool : List α)
    (fitness : α → β) (hless : ∀ a b, env.isLess a b = true ↔ fitness a < fitness b)
    (d0 : Nat) (later : List Nat) (hin : ∀ d ∈ d0 :: later, d < pool.length) :
    ∃ (j dj : Nat) (fj : β), j < (d0 :: later).length ∧ (d0 :: later)[j]? = some dj ∧
      (pool[dj]?).map fitness = some fj ∧
      later.foldl (replaceIfWorse env pool) d0 = dj ∧
      (∀ (i di : Nat) (b : α), (d0 :: later)[i]? = some di → pool[di]? = some b → fj ≤ fitness b) ∧
      (∀ (i di : Nat) (b : α), i < j → (d0 :: later)[i]? = some di → pool[di]? = some b → fj < fitness b) := by
  have hd0 : d0 < pool.length := hin d0 (by simp)
  have hlater : ∀ d ∈ later, d < pool.length := fun d hd => hin d (by simp [hd])
  have hf := foldl_replaceIfWorse_lt env pool later d0 hd0 hlater
  -- a total key on indices that agrees with the fitness on the positions of the pool
  let g : Nat → β := fun d => fitness ((pool[d]?).getD pool[d0])
  have hgsome : ∀ d b, pool[d]? = some b → g d = fitness b := by
    intro d b h; simp [g, h]
  have hg : ∀ d c, d < pool.length → c < pool.length →
      (isWorseAt env pool d c = true ↔ g d < g c) := by
    intro d c hd hc
    rw [isWorseAt_of_lt env pool d c hd hc, hless,
      hgsome d pool[d] (List.getElem?_eq_getElem hd), hgsome c pool[c] (List.getElem?_eq_getElem hc)]
  have hfj : (pool[later.foldl (replaceIfWorse env pool) d0]?).map fitness =
      some (g (later.foldl (replaceIfWorse env pool) d0)) := by
    rw [List.getElem?_eq_getElem hf, hgsome _ _ (List.getElem?_eq_getElem hf)]
    rfl
  have hmem : ∀ (i di : Nat), later[i]? = some di → di ∈ later := by
    intro i di h
    exact List.getElem?_mem h
  rcases foldl_replaceIfWorse_first_min env pool g hg later d0 hd0 hlater with
    ⟨hfd, hmin⟩ | ⟨j, hj, hjf, hlt, hbefore, hmin⟩
  · refine ⟨0, later.foldl (replaceIfWorse env pool) d0, _, by simp, by simp [hfd], hfj, rfl,
      ?_, ?_⟩
    · intro i di b hget hb
      rw [← hgsome di b hb, hfd]
      cases i with
      | zero => simp at hget; subst hget; exact le_refl _
      | succ i => exact hmin di (hmem i di (by simpa using hget))
    · intro i di b hi; omega
  · refine ⟨j + 1, later.foldl (replaceIfWorse env pool) d0, _, by simpa using hj,
      by simpa using hjf, hfj, rfl, ?_, ?_⟩
    · intro i di b hget hb
      rw [← hgsome di b hb]
      cases i with
      | zero => simp at hget; subst hget; exact le_of_lt hlt
      | succ i => exact hmin di (hmem i di (by simpa using hget))
    · intro i di b hi hget hb
      rw [← hgsome di b hb]
      cases i with
      | zero => simp at hget; subst hget; exact hlt
      | succ i => exact hbefore i di (by omega) (by simpa using hget)

/-- C7, first among the equally worst: with individuals ordered by a scalar fitness
(`isLess a b` exactly when `fitness a < fitness b`), for a pool that is not empty, `k ≥ 1`
and draws that are all positions of the pool, the call returns the draw `dj` at a position
`j < k` whose fitness `fj` is the smallest of the sample and strictly smaller than the
fitness of every draw before position `j`: `j` is the first position holding the minimum,
and a later draw with the same fitness does not replace it. -/
theorem selectOneIndividual_first_of_worst {β : Type} [LinearOrder β] (env : Env ρ α)
    (fitness : α → β) (k : Nat) (pool : List α) (ctx : Context ρ α)
    (hne : pool ≠ []) (hk : 1 ≤ k)
    (hdraws : ∀ d ∈ nextDraws env 0 (poolHigh pool) k ctx.randomizer, d < pool.length)
    (hless : ∀ a b, env.isLess a b = true ↔ fitness a < fitness b) :
    ∃ (j dj : Nat) (fj : β), j < k ∧ (nextDraws env 0 (poolHigh pool) k ctx.randomizer)[j]? = some dj ∧
      (pool[dj]?).map fitness = some fj ∧
      (selectOneIndividual env k pool ctx).result = Except.ok dj ∧
      (∀ (i di : Nat) (b : α), (nextDraws env 0 (poolHigh pool) k ctx.randomizer)[i]? = some di →
        pool[di]? = some b → fj ≤ fitness b) ∧
      (∀ (i di : Nat) (b : α), i < j → (nextDraws env 0 (poolHigh pool) k ctx.randomizer)[i]? = some di →
        pool[di]? = some b → fj < fitness b) := by
  have _ := hne
  obtain ⟨n, rfl⟩ : ∃ n, k = n + 1 := ⟨k - 1, by omega⟩
  have hres := (selectOneIndividual_spec env pool n ctx hdraws).1
  have hlen := nextDraws_length env 0 (poolHigh pool) (n + 1) ctx.randomizer
  simp only [nextDraws] at hdraws hlen ⊢
  obtain ⟨j, dj, fj, hj, hget, hfj, hfold, hmin, hfirst⟩ :=
    worstOfDraws_first_min env pool fitness hless _ _ hdraws
  rw [hlen] at hj
  exact ⟨j, dj, fj, hj, hget, hfj, by rw [hres, hfold], hmin, hfirst⟩

/-- C7 at the pool `[3, 1, 4, 1, 5]` with draws `[2, 3, 1]`: both `3` and `1` hold the
smallest fitness, and the earlier draw `3` is returned. -/
theorem selectOneIndividual_first_of_worst_witness :
    (selectOneIndividual fitnessEnv 3 [3, 1, 4, 1, 5] (scriptedContext [2, 3, 1] false)).result
        = Except.ok 3 ∧
    ∃ (j dj : Nat) (fj : Nat), j < 3 ∧ (nextDraws fitnessEnv 0 (poolHigh [3, 1, 4, 1, 5]) 3
        (scriptedContext [2, 3, 1] false).randomizer)[j]? = some dj ∧
      ([3, 1, 4, 1, 5][dj]?).map id = some fj ∧
      (selectOneIndividual fitnessEnv 3 [3, 1, 4, 1, 5]
        (scriptedContext [2, 3, 1] false)).result = Except.ok dj ∧
      (∀ (i di : Nat) (b : Nat), (nextDraws fitnessEnv 0 (poolHigh [3, 1, 4, 1, 5]) 3
          (scriptedContext [2, 3, 1] false).randomizer)[i]? = some di →
        [3, 1, 4, 1, 5][di]? = some b → fj ≤ id b) ∧
      (∀ (i di : Nat) (b : Nat), i < j → (nextDraws fitnessEnv 0 (poolHigh [3, 1, 4, 1, 5]) 3
          (scriptedContext [2, 3, 1] false).randomizer)[i]? = some di →
        [3, 1, 4, 1, 5][di]? = some b → fj < id b) :=
  ⟨rfl, selectOneIndividual_first_of_worst fitnessEnv id 3 [3, 1, 4, 1, 5]
    (scriptedContext [2, 3, 1] false) (by decide) (by decide) (by decide)
    (by intro a b; simp [fitnessEnv])⟩

theorem alwaysLessEnv_rollsInRange : RollsInRange alwaysLessEnv :=
  rangedEnv_rollsInRange

/-- C8: for a pool of size 1, every `k > 0` and every ordering predicate, with a randomizer
that answers within the range it is asked for, the call returns index `0`. -/
theorem selectOneIndividual_singleton (env : Env ρ α) (k : Nat) (pool : List α)
    (ctx : Context ρ α) (hsize : pool.length = 1) (hk : 0 < k) (hroll : RollsInRange env) :
    (selectOneIndividual env k pool ctx).result = Except.ok 0 := by
  obtain ⟨n, rfl⟩ : ∃ n, k = n + 1 := ⟨k - 1, by omega⟩
  have hne : pool ≠ [] := by
    intro h; rw [h] at hsize; simp at hsize
  have hdraws := nextDraws_lt_length env hroll pool hne (n + 1) ctx.randomizer
  have hlt := foldl_replaceIfWorse_lt env pool
    (nextDraws env 0 (poolHigh pool) n (env.rollInteger ctx.randomizer 0 (poolHigh pool)).2)
    (uintCast (env.rollInteger ctx.randomizer 0 (poolHigh pool)).1) (hdraws _ (by simp [nextDraws]))
    (fun d hmem => hdraws d (by simp [nextDraws, hmem]))
  rw [(selectOneIndividual_spec env pool n ctx hdraws).1]
  congr 1
  omega

/-- C8 at the pool `[42]` with `k = 4` and an ordering predicate that always holds. -/
theorem selectOneIndividual_singleton_witness :
    (selectOneIndividual alwaysLessEnv 4 [42] (scriptedContext [9, 3, 1, 7] true)).result
      = Except.ok 0 :=
  selectOneIndividual_singleton alwaysLessEnv 4 [42] (scriptedContext [9, 3, 1, 7] true)
    (by decide) (by decide) alwaysLessEnv_rollsInRange

/-- C9: for a pool that is not empty (its size an `unsigned int`) and `k = 1`, the call
requests exactly one draw, over `[0, size - 1]`, and returns the value drawn; the ordering
predicate is never evaluated. The only other event is the read of the chosen individual
by the last log statement when debug logging is active. -/
theorem selectOneIndividual_single_draw (env : Env ρ α) (pool : List α) (ctx : Context ρ α)
    (hne : pool ≠ []) (hfit : pool.length < 2 ^ 32)
    (hdraw : (env.rollInteger ctx.randomizer 0 (pool.length - 1)).1 ≤ pool.length - 1) :
    (selectOneIndividual env 1 pool ctx).result =
        Except.ok (env.rollInteger ctx.randomizer 0 (pool.length - 1)).1 ∧
      (selectOneIndividual env 1 pool ctx).context.randomizer =
        (env.rollInteger ctx.randomizer 0 (pool.length - 1)).2 ∧
      (selectOneIndividual env 1 pool ctx).events =
        Event.rollInteger 0 (pool.length - 1)
            (env.rollInteger ctx.randomizer 0 (pool.length - 1)).1 ::
          (if ctx.logger.debugLogged then
            [Event.poolRead (env.rollInteger ctx.randomizer 0 (pool.length - 1)).1] else []) ∧
      ∀ tried chosen less,
        Event.isLess tried chosen less ∉ (selectOneIndividual env 1 pool ctx).events := by
  have hlen : 0 < pool.length := List.length_pos.mpr hne
  have hhigh := poolHigh_eq pool hne hfit
  have hcast : uintCast (env.rollInteger ctx.randomizer 0 (pool.length - 1)).1 =
      (env.rollInteger ctx.randomizer 0 (pool.length - 1)).1 :=
    uintCast_of_lt _ (by omega)
  have hdraws : ∀ d ∈ nextDraws env 0 (poolHigh pool) (0 + 1) ctx.randomizer,
      d < pool.length := by
    intro d hd
    simp only [nextDraws, hhigh, hcast, List.mem_singleton] at hd
    omega
  obtain ⟨h1, h2, h3, _⟩ := selectOneIndividual_spec env pool 0 ctx hdraws
  simp only [Nat.zero_add, nextDraws, randomizerAfter, tournamentEvents, loopEvents, hhigh,
    hcast, List.foldl_nil, List.nil_append] at h1 h2 h3
  refine ⟨h1, h2, h3, ?_⟩
  intro tried chosen less hmem
  rw [h3] at hmem
  cases hdbg : ctx.logger.debugLogged <;> simp [hdbg] at hmem

/-- C9 at the pool `[10, 2, 7, 9, 1]` with the draw `3`. -/
theorem selectOneIndividual_single_draw_witness :
    (selectOneIndividual fitnessEnv 1 [10, 2, 7, 9, 1] (scriptedContext [3] true)).result =
        Except.ok 3 ∧
      (selectOneIndividual fitnessEnv 1 [10, 2, 7, 9, 1]
        (scriptedContext [3] true)).context.randomizer = [] ∧
      (selectOneIndividual fitnessEnv 1 [10, 2, 7, 9, 1] (scriptedContext [3] true)).events =
        [Event.rollInteger 0 4 3, Event.poolRead 3] ∧
      ∀ tried chosen less, Event.isLess tried chosen less ∉
        (selectOneIndividual fitnessEnv 1 [10, 2, 7, 9, 1] (scriptedContext [3] true)).events :=
  selectOneIndividual_single_draw fitnessEnv [10, 2, 7, 9, 1] (scriptedContext [3] true)
    (by decide) (by decide) (by decide)

/-! ## What a call leaves alone -/

theorem Run.poolAt_snd (ioPool : List α) (index : Nat) (r : Run ρ α) :
    (r.poolAt ioPool index).2 = { r with events := r.events ++ [Event.poolRead index] } := by
  unfold Run.poolAt; split <;> rfl

theorem Run.logDebug_entries (text : String) (r : Run ρ α) :
    r.logger.entries <+: (r.logDebug text).logger.entries := by
  unfold Run.logDebug
  split
  · exact List.prefix_append _ _
  · exact List.prefix_refl _

theorem Run.logDebug_entries_of (text : String) (r : Run ρ α) (es : List (LogEntry α))
    (h : r.logger.entries = es) : es <+: (r.logDebug text).logger.entries :=
  h ▸ Run.logDebug_entries text r

/-- A pass of the loop body, whether it succeeds or fails: it makes one draw, leaves the
debug switch alone, only adds to the log, and when it succeeds the new candidate is the old
one or the index just drawn. -/
theorem tournamentStep_frame (env : Env ρ α) (pool : List α) (c : Nat) (r : Run ρ α) :
    (tournamentStep env pool c r).2.logger.debugLogged = r.logger.debugLogged ∧
      r.logger.entries <+: (tournamentStep env pool c r).2.logger.entries ∧
      (tournamentStep env pool c r).2.randomizer =
        (env.rollInteger r.randomizer 0 (poolHigh pool)).2 ∧
      ∀ c1, (tournamentStep env pool c r).1 = Except.ok c1 →
        c1 = c ∨ c1 = (uintCast (env.rollInteger r.randomizer 0 (poolHigh pool)).1) := by
  unfold tournamentStep
  simp only []
  split
  · rename_i e r1 heq
    have h1 : r1 = _ := (congrArg Prod.snd heq).symm
    rw [Run.poolAt_snd] at h1
    subst h1
    refine ⟨rfl, List.prefix_refl _, rfl, ?_⟩
    intro c1 h; cases h
  · rename_i tried r1 heq
    have h1 : r1 = _ := (congrArg Prod.snd heq).symm
    rw [Run.poolAt_snd] at h1
    subst h1
    split
    · rename_i e r2 heq2
      have h2 : r2 = _ := (congrArg Prod.snd heq2).symm
      rw [Run.poolAt_snd] at h2
      subst h2
      refine ⟨rfl, List.prefix_refl _, rfl, ?_⟩
      intro c1 h; cases h
    · rename_i chosen r2 heq2
      have h2 : r2 = _ := (congrArg Prod.snd heq2).symm
      rw [Run.poolAt_snd] at h2
      subst h2
      split
      · dsimp only [Run.rollInteger]
        refine ⟨Run.logDebug_debugLogged _ _, Run.logDebug_entries_of _ _ _ rfl,
          Run.logDebug_randomizer _ _, ?_⟩
        intro c1 h
        injection h with h
        right; exact h.symm
      · dsimp only [Run.rollInteger]
        refine ⟨Run.logDebug_debugLogged _ _, Run.logDebug_entries_of _ _ _ rfl,
          Run.logDebug_randomizer _ _, ?_⟩
        intro c1 h
        injection h with h
        left; exact h.symm

/-- The loop, whether it succeeds or fails: it leaves the debug switch alone and only adds
to the log; when it succeeds it has made exactly `n` draws and the candidate it ends on is
the one it started with or one of the `n` indices drawn. -/
theorem tournamentLoop_frame (env : Env ρ α) (pool : List α) :
    ∀ (n c : Nat) (r : Run ρ α),
      (tournamentLoop env pool n c r).2.logger.debugLogged = r.logger.debugLogged ∧
        r.logger.entries <+: (tournamentLoop env pool n c r).2.logger.entries ∧
        ∀ c1, (tournamentLoop env pool n c r).1 = Except.ok c1 →
          (c1 = c ∨ c1 ∈ nextDraws env 0 (poolHigh pool) n r.randomizer) ∧
          (tournamentLoop env pool n c r).2.randomizer =
            randomizerAfter env 0 (poolHigh pool) n r.randomizer := by
  intro n
  induction n with
  | zero =>
    intro c r
    refine ⟨rfl, List.prefix_refl _, ?_⟩
    intro c1 h
    simp only [tournamentLoop] at h
    injection h with h
    exact ⟨Or.inl h.symm, rfl⟩
  | succ n ih =>
    intro c r
    obtain ⟨s1, s2, s3, s4⟩ := tournamentStep_frame env pool c r
    simp only [tournamentLoop]
    rcases hres : tournamentStep env pool c r with ⟨res, r1⟩
    rw [hres] at s1 s2 s3 s4
    simp only at s1 s2 s3 s4
    cases res with
    | error e =>
      refine ⟨s1, s2, ?_⟩
      intro c1 h; cases h
    | ok c0 =>
      obtain ⟨i1, i2, i3⟩ := ih c0 r1
      refine ⟨by rw [i1, s1], s2.trans i2, ?_⟩
      intro c1 h
      obtain ⟨hmem, hrand⟩ := i3 c1 h
      rw [s3] at hmem hrand
      refine ⟨?_, by simpa [randomizerAfter] using hrand⟩
      simp only [nextDraws, List.mem_cons]
      rcases hmem with hc | hc
      · rcases s4 c0 rfl with h0 | h0
        · left; rw [hc, h0]
        · right; left; rw [hc, h0]
      · right; right; exact hc

/-- The end of the function, whether it succeeds or fails: it leaves the debug switch and
the randomizer alone, only adds to the log, and returns the candidate it was given. -/
theorem finish_frame (env : Env ρ α) (pool : List α) (c : Nat) (r : Run ρ α) :
    (finish env pool c r).context.logger.debugLogged = r.logger.debugLogged ∧
      r.logger.entries <+: (finish env pool c r).context.logger.entries ∧
      (finish env pool c r).context.randomizer = r.randomizer ∧
      ∀ c1, (finish env pool c r).result = Except.ok c1 → c1 = c := by
  unfold finish Run.logObjectDebug
  simp only [Run.logDebug_debugLogged]
  have hlog := Run.logDebug_entries
    ("Selecting the " ++ env.uint2ordinal (uintAdd c 1) ++ " individual") r
  cases hdbg : r.logger.debugLogged
  · simp only [Bool.false_eq_true, if_false, Run.context, Run.logDebug_debugLogged,
      Run.logDebug_randomizer, hdbg]
    refine ⟨trivial, hlog, trivial, ?_⟩
    intro c1 h; injection h with h; exact h.symm
  · simp only [if_true]
    have hsnd := Run.poolAt_snd pool c (r.logDebug
      ("Selecting the " ++ env.uint2ordinal (uintAdd c 1) ++ " individual"))
    rcases hres : Run.poolAt pool c (r.logDebug
      ("Selecting the " ++ env.uint2ordinal (uintAdd c 1) ++ " individual")) with ⟨res, r1⟩
    rw [hres] at hsnd
    simp only at hsnd
    subst hsnd
    cases res with
    | error e =>
      simp only [Run.context, Run.logDebug_debugLogged, Run.logDebug_randomizer, hdbg]
      refine ⟨trivial, hlog, trivial, ?_⟩
      intro c1 h; cases h
    | ok a =>
      simp only [Run.context, Run.logDebug_debugLogged, Run.logDebug_randomizer, hdbg]
      refine ⟨trivial, hlog.trans (List.prefix_append _ _), trivial, ?_⟩
      intro c1 h; injection h with h; exact h.symm

/-- The function body for any tournament size, pool and randomizer, whether it succeeds or
fails: the debug switch is left alone and the log is only added to; an index that is
returned is one of the `k` indices drawn, and then exactly `k` draws have been made. -/
theorem selectOneIndividual_frame (env : Env ρ α) (k : Nat) (pool : List α)
    (ctx : Context ρ α) :
    (selectOneIndividual env k pool ctx).context.logger.debugLogged =
        ctx.logger.debugLogged ∧
      ctx.logger.entries <+: (selectOneIndividual env k pool ctx).context.logger.entries ∧
      ∀ i, (selectOneIndividual env k pool ctx).result = Except.ok i →
        i ∈ nextDraws env 0 (poolHigh pool) k ctx.randomizer ∧
        (selectOneIndividual env k pool ctx).context.randomizer =
          randomizerAfter env 0 (poolHigh pool) k ctx.randomizer := by
  cases k with
  | zero =>
    refine ⟨by simp [selectOneIndividual], by simp [selectOneIndividual], ?_⟩
    intro i h
    simp [selectOneIndividual] at h
  | succ n =>
    rw [selectOneIndividual_succ]
    obtain ⟨l1, l2, l3⟩ := tournamentLoop_frame env pool n
      (uintCast (env.rollInteger ctx.randomizer 0 (poolHigh pool)).1) (afterFirstDraw env pool ctx)
    rw [afterFirstDraw_debugLogged] at l1
    rw [afterFirstDraw_randomizer] at l3
    have hfirst : ctx.logger.entries <+: (afterFirstDraw env pool ctx).logger.entries := by
      unfold afterFirstDraw
      exact Run.logDebug_entries _ (ctx.start.rollInteger env 0 (poolHigh pool)).2
    rcases hres : tournamentLoop env pool n (uintCast (env.rollInteger ctx.randomizer 0 (poolHigh pool)).1)
      (afterFirstDraw env pool ctx) with ⟨res, r2⟩
    rw [hres] at l1 l2 l3
    simp only at l1 l2 l3
    cases res with
    | error e =>
      refine ⟨l1, hfirst.trans l2, ?_⟩
      intro i h; cases h
    | ok c =>
      obtain ⟨f1, f2, f3, f4⟩ := finish_frame env pool c r2
      refine ⟨by rw [f1, l1], (hfirst.trans l2).trans f2, ?_⟩
      intro i h
      have hic := f4 i h
      subst hic
      obtain ⟨hmem, hrand⟩ := l3 i rfl
      refine ⟨?_, by rw [f3, hrand]; rfl⟩
      simp only [nextDraws, List.mem_cons]
      exact hmem

/-! ## Independence of the logger -/

/-- A pass of the loop body does the same to the randomizer and to the observation record,
and gives the same candidate or failure, whatever the logger holds. -/
theorem tournamentStep_logger (env : Env ρ α) (pool : List α) (c : Nat) (r r' : Run ρ α)
    (hrand : r.randomizer = r'.randomizer) (hev : r.events = r'.events) :
    (tournamentStep env pool c r).1 = (tournamentStep env pool c r').1 ∧
      (tournamentStep env pool c r).2.randomizer =
        (tournamentStep env pool c r').2.randomizer ∧
      (tournamentStep env pool c r).2.events = (tournamentStep env pool c r').2.events := by
  obtain ⟨s, l, ev⟩ := r
  obtain ⟨s', l', ev'⟩ := r'
  simp only at hrand hev
  subst hrand hev
  simp only [tournamentStep, Run.rollInteger, Run.poolAt]
  cases pool[uintCast (env.rollInteger s 0 (poolHigh pool)).1]? with
  | none => exact ⟨rfl, rfl, rfl⟩
  | some tried =>
    cases pool[c]? with
    | none => exact ⟨rfl, rfl, rfl⟩
    | some chosen =>
      cases hless : env.isLess tried chosen <;>
        simp [hless, Run.logDebug_randomizer, Run.logDebug_events]

/-- The loop does the same to the randomizer and to the observation record, and gives the
same candidate or failure, whatever the logger holds. -/
theorem tournamentLoop_logger (env : Env ρ α) (pool : List α) :
    ∀ (n c : Nat) (r r' : Run ρ α), r.randomizer = r'.randomizer → r.events = r'.events →
      (tournamentLoop env pool n c r).1 = (tournamentLoop env pool n c r').1 ∧
        (tournamentLoop env pool n c r).2.randomizer =
          (tournamentLoop env pool n c r').2.randomizer ∧
        (tournamentLoop env pool n c r).2.events = (tournamentLoop env pool n c r').2.events := by
  intro n
  induction n with
  | zero => intro c r r' hrand hev; exact ⟨rfl, hrand, hev⟩
  | succ n ih =>
    intro c r r' hrand hev
    obtain ⟨s1, s2, s3⟩ := tournamentStep_logger env pool c r r' hrand hev
    simp only [tournamentLoop]
    rcases hres : tournamentStep env pool c r with ⟨res, r1⟩
    rcases hres' : tournamentStep env pool c r' with ⟨res', r1'⟩
    rw [hres, hres'] at s1 s2 s3
    simp only at s1 s2 s3
    subst s1
    cases res with
    | error e => exact ⟨rfl, s2, s3⟩
    | ok c1 => exact ih c1 r1 r1' s2 s3

/-- The end of the function in full: the index is returned unless debug logging is active
and the index is not a position of the pool, and the pool is read exactly when debug
logging is active. -/
theorem finish_result (env : Env ρ α) (pool : List α) (c : Nat) (r : Run ρ α) :
    (finish env pool c r).result =
        (if r.logger.debugLogged = true ∧ pool.length ≤ c then
          Except.error (Failure.boundCheck c pool.length) else Except.ok c) ∧
      (finish env pool c r).events =
        r.events ++ (if r.logger.debugLogged then [Event.poolRead c] else []) := by
  unfold finish Run.logObjectDebug
  simp only [Run.logDebug_debugLogged]
  cases hdbg : r.logger.debugLogged
  · simp [Run.logDebug_events]
  · simp only [if_true, Run.poolAt, Run.logDebug_events, true_and]
    cases hc : pool[c]? with
    | none =>
      have hle : pool.length ≤ c := List.getElem?_eq_none_iff.mp hc
      simp [hle]
    | some a =>
      have hlt : c < pool.length := (List.getElem?_eq_some.mp hc).1
      simp [Nat.not_le.mpr hlt]

/-- The function body with two loggers: the randomizer and the draws and comparisons do not
depend on the logger at all; the result does not when the two loggers agree on debug
logging, and an index within the pool that one call returns the other returns too. -/
theorem selectOneIndividual_logger (env : Env ρ α) (k : Nat) (pool : List α) (s : ρ)
    (logger1 logger2 : Logger α) :
    (selectOneIndividual env k pool { randomizer := s, logger := logger1 }).context.randomizer =
        (selectOneIndividual env k pool
          { randomizer := s, logger := logger2 }).context.randomizer ∧
      (selectOneIndividual env k pool { randomizer := s, logger := logger1 }).events.filter
          (fun e => !e.isPoolRead) =
        (selectOneIndividual env k pool { randomizer := s, logger := logger2 }).events.filter
          (fun e => !e.isPoolRead) ∧
      (logger1.debugLogged = logger2.debugLogged →
        (selectOneIndividual env k pool { randomizer := s, logger := logger1 }).result =
          (selectOneIndividual env k pool { randomizer := s, logger := logger2 }).result) ∧
      (∀ i, i < pool.length →
        (selectOneIndividual env k pool { randomizer := s, logger := logger1 }).result =
          Except.ok i →
        (selectOneIndividual env k pool { randomizer := s, logger := logger2 }).result =
          Except.ok i) := by
  cases k with
  | zero => simp [selectOneIndividual]
  | succ n =>
    rw [selectOneIndividual_succ, selectOneIndividual_succ]
    obtain ⟨l1, l2, l3⟩ := tournamentLoop_logger env pool n
      (uintCast (env.rollInteger s 0 (poolHigh pool)).1)
      (afterFirstDraw env pool { randomizer := s, logger := logger1 })
      (afterFirstDraw env pool { randomizer := s, logger := logger2 })
      (by rw [afterFirstDraw_randomizer, afterFirstDraw_randomizer])
      (by rw [afterFirstDraw_events, afterFirstDraw_events])
    obtain ⟨d1, _, _⟩ := tournamentLoop_frame env pool n
      (uintCast (env.rollInteger s 0 (poolHigh pool)).1)
      (afterFirstDraw env pool { randomizer := s, logger := logger1 })
    obtain ⟨d2, _, _⟩ := tournamentLoop_frame env pool n
      (uintCast (env.rollInteger s 0 (poolHigh pool)).1)
      (afterFirstDraw env pool { randomizer := s, logger := logger2 })
    rw [afterFirstDraw_debugLogged] at d1 d2
    simp only at l1 l2 l3 d1 d2 ⊢
    rcases hres : tournamentLoop env pool n (uintCast (env.rollInteger s 0 (poolHigh pool)).1)
      (afterFirstDraw env pool { randomizer := s, logger := logger1 }) with ⟨res, r2⟩
    rcases hres' : tournamentLoop env pool n (uintCast (env.rollInteger s 0 (poolHigh pool)).1)
      (afterFirstDraw env pool { randomizer := s, logger := logger2 }) with ⟨res', r2'⟩
    rw [hres] at l1 l2 l3 d1
    rw [hres'] at l1 l2 l3 d2
    simp only at l1 l2 l3 d1 d2
    subst l1
    cases res with
    | error e =>
      refine ⟨l2, by simp only [l3], fun _ => rfl, ?_⟩
      intro i _ h; cases h
    | ok c =>
      obtain ⟨_, _, f1, _⟩ := finish_frame env pool c r2
      obtain ⟨_, _, f2, _⟩ := finish_frame env pool c r2'
      obtain ⟨g1, g2⟩ := finish_result env pool c r2
      obtain ⟨g1', g2'⟩ := finish_result env pool c r2'
      simp only
      refine ⟨by rw [f1, f2, l2], ?_, ?_, ?_⟩
      · rw [g2, g2', l3, List.filter_append, List.filter_append]
        congr 1
        cases r2.logger.debugLogged <;> cases r2'.logger.debugLogged <;>
          simp [Event.isPoolRead]
      · intro hsame
        rw [g1, g1', d1, d2, hsame]
      · intro i hi h
        rw [g1] at h
        rw [g1']
        split at h
        · cases h
        · injection h with h
          subst h
          rw [if_neg (fun hcon => absurd hcon.2 (Nat.not_le.mpr hi))]

/-! ## Counting draws and comparisons -/

theorem loopEvents_draws (env : Env ρ α) (pool : List α) :
    ∀ (ds : List Nat) (c : Nat),
      (loopEvents env pool c ds).filter Event.isDraw =
        ds.map (fun d => Event.rollInteger 0 (poolHigh pool) d) := by
  intro ds
  induction ds with
  | nil => intro c; rfl
  | cons d ds ih =>
    intro c
    simp [loopEvents, stepEvents, List.filter_append, List.filter_cons, Event.isDraw, ih]

theorem loopEvents_comparisons (env : Env ρ α) (pool : List α) :
    ∀ (ds : List Nat) (c : Nat),
      ((loopEvents env pool c ds).filter Event.isComparison).length = ds.length := by
  intro ds
  induction ds with
  | nil => intro c; rfl
  | cons d ds ih =>
    intro c
    simp [loopEvents, stepEvents, List.filter_append, List.filter_cons, Event.isComparison, ih]

/-- The draws of a tournament are one `rollInteger(0, poolHigh)` for each drawn index, in
order. -/
theorem tournamentEvents_draws (env : Env ρ α) (pool : List α) (debugLogged : Bool)
    (draws : List Nat) :
    (tournamentEvents env pool debugLogged draws).filter Event.isDraw =
      draws.map (fun d => Event.rollInteger 0 (poolHigh pool) d) := by
  cases draws with
  | nil => rfl
  | cons d0 later =>
    cases debugLogged <;>
      simp [tournamentEvents, List.filter_append, List.filter_cons, Event.isDraw,
        loopEvents_draws]

/-- A tournament compares once for each draw after the first. -/
theorem tournamentEvents_comparisons (env : Env ρ α) (pool : List α) (debugLogged : Bool)
    (draws : List Nat) :
    ((tournamentEvents env pool debugLogged draws).filter Event.isComparison).length =
      draws.length - 1 := by
  cases draws with
  | nil => rfl
  | cons d0 later =>
    cases debugLogged <;>
      simp [tournamentEvents, List.filter_append, List.filter_cons, Event.isComparison,
        loopEvents_comparisons]

/-- The first `n + 1` draws are the first `n` draws followed by the draw made in the state
the randomizer has after `n` draws. -/
theorem nextDraws_succ_last (env : Env ρ α) (inLow inHigh : Nat) :
    ∀ (n : Nat) (s : ρ),
      nextDraws env inLow inHigh (n + 1) s =
        nextDraws env inLow inHigh n s ++
          [(uintCast (env.rollInteger (randomizerAfter env inLow inHigh n s) inLow inHigh).1)] := by
  intro n
  induction n with
  | zero => intro s; rfl
  | succ n ih =>
    intro s
    rw [nextDraws, ih]
    rfl

theorem foldl_replaceIfWorse_mem (env : Env ρ α) (pool : List α) :
    ∀ (ds : List Nat) (c : Nat), ds.foldl (replaceIfWorse env pool) c ∈ c :: ds := by
  intro ds
  induction ds with
  | nil => intro c; simp
  | cons d ds ih =>
    intro c
    simp only [List.foldl_cons]
    have h := ih (replaceIfWorse env pool c d)
    simp only [List.mem_cons] at h ⊢
    rcases h with h | h
    · rw [h]
      unfold replaceIfWorse
      split
      · right; left; rfl
      · left; rfl
    · right; right; exact h

/-! ## The register -/

/-- A position found by name is a position of the list and holds an entry of that name. -/
theorem indexOfTag_some (tag : String) :
    ∀ (es : List Entry) (h : Nat), indexOfTag tag es = some h →
      ∃ e, es[h]? = some e ∧ e.tag = tag := by
  intro es
  induction es with
  | nil => intro h hh; simp [indexOfTag] at hh
  | cons e es ih =>
    intro h hh
    simp only [indexOfTag] at hh
    split at hh
    · rename_i htag
      injection hh with hh
      subst hh
      exact ⟨e, by simp, htag⟩
    · cases hrest : indexOfTag tag es with
      | none => simp [hrest] at hh
      | some h0 =>
        simp only [hrest, Option.map_some', Option.some.injEq] at hh
        subst hh
        obtain ⟨e0, he0, htag0⟩ := ih h0 hrest
        exact ⟨e0, by simpa using he0, htag0⟩

/-- A name that is found stays at its position when entries are added at the end. -/
theorem indexOfTag_append_some (tag : String) (more : List Entry) :
    ∀ (es : List Entry) (h : Nat), indexOfTag tag es = some h →
      indexOfTag tag (es ++ more) = some h := by
  intro es
  induction es with
  | nil => intro h hh; simp [indexOfTag] at hh
  | cons e es ih =>
    intro h hh
    simp only [indexOfTag, List.cons_append] at hh ⊢
    split at hh
    · rename_i htag
      simp [htag, hh]
    · rename_i htag
      simp only [htag, if_false]
      cases hrest : indexOfTag tag es with
      | none => simp [hrest] at hh
      | some h0 =>
        simp only [List.append_eq]
        rw [ih h0 hrest]
        simpa [hrest] using hh

/-- A name that is not found is found at the end once an entry of that name is added
there, and is still not found when an entry of another name is added. -/
theorem indexOfTag_append_none (tag : String) (e : Entry) :
    ∀ (es : List Entry), indexOfTag tag es = none →
      indexOfTag tag (es ++ [e]) = if e.tag = tag then some es.length else none := by
  intro es
  induction es with
  | nil => intro _; simp [indexOfTag]
  | cons e0 es ih =>
    intro hh
    simp only [indexOfTag, List.cons_append] at hh ⊢
    split at hh
    · cases hh
    · rename_i htag
      simp only [htag, if_false]
      cases hrest : indexOfTag tag es with
      | some h0 => simp [hrest] at hh
      | none =>
        simp only [List.append_eq]
        rw [ih hrest]
        split <;> simp

/-- An edit by name changes the object at the position the name is found at, and leaves
the name there. -/
theorem setObject_at (tag : String) (object : Object) :
    ∀ (es : List Entry) (h : Nat) (e : Entry), indexOfTag tag es = some h → es[h]? = some e →
      (setObject tag object es)[h]? = some { e with object := object } := by
  intro es
  induction es with
  | nil => intro h e hh; simp [indexOfTag] at hh
  | cons e0 es ih =>
    intro h e hh he
    simp only [indexOfTag] at hh
    simp only [setObject]
    split at hh
    · rename_i htag
      injection hh with hh
      subst hh
      simp only [List.getElem?_cons_zero, Option.some.injEq] at he
      subst he
      simp [htag]
    · rename_i htag
      simp only [htag, if_false]
      cases hrest : indexOfTag tag es with
      | none => simp [hrest] at hh
      | some h0 =>
        simp only [hrest, Option.map_some', Option.some.injEq] at hh
        subst hh
        simp only [List.getElem?_cons_succ] at he ⊢
        exact ih h0 e hrest he

/-- Inserting under a name returns the position the name is found at afterwards. -/
theorem Register.insertEntry_handle (reg : Register) (inTag : String) (inEntry : Object)
    (inDescription : Description) :
    indexOfTag inTag (reg.insertEntry inTag inEntry inDescription).2.entries =
      some (reg.insertEntry inTag inEntry inDescription).1 := by
  unfold Register.insertEntry
  split
  · rename_i handle hfound
    exact hfound
  · rename_i hnone
    simp only []
    rw [indexOfTag_append_none inTag _ reg.entries hnone]
    simp

/-- Inserting under a name that is not registered adds the entry at the end. -/
theorem Register.insertEntry_fresh (reg : Register) (inTag : String) (inEntry : Object)
    (inDescription : Description) (hnone : indexOfTag inTag reg.entries = none) :
    (reg.insertEntry inTag inEntry inDescription).1 = reg.entries.length ∧
      (reg.insertEntry inTag inEntry inDescription).2.entries =
        reg.entries ++ [⟨inTag, inEntry, inDescription⟩] := by
  unfold Register.insertEntry
  rw [hnone]
  exact ⟨rfl, rfl⟩

/-- Every call of `insertEntry` is recorded, after those recorded before. -/
theorem Register.insertEntry_insertions (reg : Register) (inTag : String) (inEntry : Object)
    (inDescription : Description) :
    (reg.insertEntry inTag inEntry inDescription).2.insertions =
      reg.insertions ++ [⟨inTag, inEntry, inDescription⟩] := by
  unfold Register.insertEntry
  split <;> rfl

/-- Inserting under one name does not register another name. -/
theorem Register.insertEntry_other (reg : Register) (inTag tag : String) (inEntry : Object)
    (inDescription : Description) (hne : inTag ≠ tag)
    (hnone : indexOfTag tag reg.entries = none) :
    indexOfTag tag (reg.insertEntry inTag inEntry inDescription).2.entries = none := by
  unfold Register.insertEntry
  split
  · exact hnone
  · simp only []
    rw [indexOfTag_append_none tag _ reg.entries hnone]
    simp [hne]

/-- The base registration records its insertions in order, leaves randomizer and logger
alone, and does not register a name that none of its parameters has. -/
theorem SelectionOp.registerParams_spec (tag : String) :
    ∀ (shared : List Entry) (sys : System ρ α),
      (SelectionOp.registerParams shared sys).register.insertions =
          sys.register.insertions ++ shared ∧
        (SelectionOp.registerParams shared sys).context = sys.context ∧
        ((∀ e ∈ shared, e.tag ≠ tag) → indexOfTag tag sys.register.entries = none →
          indexOfTag tag (SelectionOp.registerParams shared sys).register.entries = none) := by
  intro shared
  induction shared with
  | nil => intro sys; simp [SelectionOp.registerParams]
  | cons e shared ih =>
    intro sys
    obtain ⟨h1, h2, h3⟩ := ih
      { sys with register := (sys.register.insertEntry e.tag e.object e.description).2 }
    simp only [SelectionOp.registerParams, List.foldl_cons] at h1 h2 h3 ⊢
    refine ⟨?_, h2, ?_⟩
    · rw [h1, Register.insertEntry_insertions]
      simp
    · intro hshared hnone
      exact h3 (fun x hx => hshared x (by simp [hx]))
        (Register.insertEntry_other _ _ _ _ _ (hshared e (by simp)) hnone)

/-- After `registerParams` the handle of the operator is the position at which the name
`ec.sel.worsttournsize` is found in the register. -/
theorem SelectWorstTournOp.registerParams_handle (shared : List Entry)
    (op : SelectWorstTournOp) (sys : System ρ α) :
    ∃ handle, (op.registerParams shared sys).1.mNumberParticipants = some handle ∧
      indexOfTag "ec.sel.worsttournsize" (op.registerParams shared sys).2.register.entries =
        some handle :=
  ⟨_, rfl, Register.insertEntry_handle _ _ _ _⟩

/-- Through a handle that is the position of an entry, an edit of that entry by name is
what `getWrappedValue` gives. -/
theorem SelectWorstTournOp.getWrappedValue_edit (op : SelectWorstTournOp) (reg : Register)
    (tag : String) (handle k : Nat) (hop : op.mNumberParticipants = some handle)
    (hfound : indexOfTag tag reg.entries = some handle) :
    op.getWrappedValue (reg.edit tag (Object.uint k)) = some k := by
  obtain ⟨e, he, _⟩ := indexOfTag_some tag reg.entries handle hfound
  have hset := setObject_at tag (Object.uint k) reg.entries handle e hfound he
  simp [SelectWorstTournOp.getWrappedValue, hop, Register.edit, hset]

/-! ## The member function on its state -/

/-- A pass of the loop body on the state computes what `tournamentStep` computes on the
pool and the run of the state, and leaves the pool and the register of the state as they
are. -/
theorem Machine.tournamentStep_eq (env : Env ρ α) (c : Nat) (m : Machine ρ α) :
    Machine.tournamentStep env c m =
      ((Beagle.tournamentStep env m.pool c m.run).1,
        { pool := m.pool, register := m.register,
          run := (Beagle.tournamentStep env m.pool c m.run).2 }) := by
  obtain ⟨pool, reg, r⟩ := m
  simp only [Machine.tournamentStep, Beagle.tournamentStep, Machine.rollInteger, Machine.poolAt,
    Machine.logDebug]
  rcases h1 : Run.poolAt pool (uintCast (Run.rollInteger env 0 (poolHigh pool) r).1)
    (Run.rollInteger env 0 (poolHigh pool) r).2 with ⟨res1, r1⟩
  cases res1 with
  | error e => rfl
  | ok tried =>
    simp only
    rcases h2 : Run.poolAt pool c r1 with ⟨res2, r2⟩
    cases res2 with
    | error e => rfl
    | ok chosen =>
      simp only
      cases hless : env.isLess tried chosen <;> simp

/-- The loop on the state computes what `tournamentLoop` computes on the pool and the run
of the state, and leaves the pool and the register of the state as they are. -/
theorem Machine.tournamentLoop_eq (env : Env ρ α) :
    ∀ (n c : Nat) (m : Machine ρ α),
      Machine.tournamentLoop env n c m =
        ((Beagle.tournamentLoop env m.pool n c m.run).1,
          { pool := m.pool, register := m.register,
            run := (Beagle.tournamentLoop env m.pool n c m.run).2 }) := by
  intro n
  induction n with
  | zero => intro c m; rfl
  | succ n ih =>
    intro c m
    simp only [Machine.tournamentLoop, Beagle.tournamentLoop]
    rw [Machine.tournamentStep_eq]
    rcases hres : Beagle.tournamentStep env m.pool c m.run with ⟨res, r1⟩
    cases res with
    | error e => rfl
    | ok c1 =>
      simp only
      rw [ih]

/-- The end of the function on the state computes what `finish` computes on the pool and
the run of the state, and leaves the pool and the register of the state as they are. -/
theorem Machine.finish_eq (env : Env ρ α) (c : Nat) (m : Machine ρ α) :
    Machine.finish env c m = (Beagle.finish env m.pool c m.run).selection m.pool m.register := by
  obtain ⟨pool, reg, r⟩ := m
  simp only [Machine.finish, Beagle.finish, Machine.logObjectDebug, Machine.logDebug,
    Outcome.selection, Machine.selection]
  rcases hres : Run.logObjectDebug pool c
    (r.logDebug ("Selecting the " ++ env.uint2ordinal (uintAdd c 1) ++ " individual"))
    with ⟨res, r1⟩
  cases res with
  | error e => rfl
  | ok u => rfl

/-- The member function, statement by statement on its state, computes what the function
body computes with the value read through the handle; its pool and register are those it
was called with. -/
theorem SelectWorstTournOp.selectOneIndividual_eq (env : Env ρ α)
    (op : SelectWorstTournOp) (pool : List α) (sys : System ρ α) :
    op.selectOneIndividual env pool sys =
      match op.getWrappedValue sys.register with
      | none =>
        { result := Except.error CallFailure.handle, pool := pool, system := sys,
          events := [] }
      | some k => (Beagle.selectOneIndividual env k pool sys.context).selection pool
          sys.register := by
  unfold SelectWorstTournOp.selectOneIndividual
  simp only []
  cases hk : op.getWrappedValue sys.register with
  | none => rfl
  | some k =>
    cases k with
    | zero => rfl
    | succ n =>
      simp only [Nat.succ_pos, gt_iff_lt, if_true, Nat.add_sub_cancel]
      rw [Machine.logDebug, Machine.tournamentLoop_eq, selectOneIndividual_succ]
      simp only [Machine.rollInteger]
      rcases hres : tournamentLoop env pool n
        (uintCast (env.rollInteger sys.context.randomizer 0 (poolHigh pool)).1)
        (afterFirstDraw env pool sys.context) with ⟨res, r2⟩
      have hres' : tournamentLoop env pool n
          (uintCast (sys.context.start.rollInteger env 0 (poolHigh pool)).1)
          ((sys.context.start.rollInteger env 0 (poolHigh pool)).2.logDebug
            ("Starting by choosing the " ++ env.uint2ordinal
              (uintAdd (uintCast (sys.context.start.rollInteger env 0 (poolHigh pool)).1) 1) ++
              " individual")) = (res, r2) := hres
      rw [hres']
      cases res with
      | error e => rfl
      | ok c =>
        simp only
        rw [Machine.finish_eq]

/-- The loop leaves the pool and the register of the state as they are: every pass draws,
reads the pool, compares and logs, and assigns to neither. -/
theorem Machine.tournamentLoop_keeps_state (env : Env ρ α) (n c : Nat) (m : Machine ρ α) :
    (Machine.tournamentLoop env n c m).2.pool = m.pool ∧
      (Machine.tournamentLoop env n c m).2.register = m.register := by
  rw [Machine.tournamentLoop_eq]
  exact ⟨rfl, rfl⟩

/-- The end of the function leaves the pool and the register of the state as they are. -/
theorem Machine.finish_keeps_state (env : Env ρ α) (c : Nat) (m : Machine ρ α) :
    (Machine.finish env c m).pool = m.pool ∧
      (Machine.finish env c m).system.register = m.register := by
  rw [Machine.finish_eq]
  exact ⟨rfl, rfl⟩

/-- The member function, successful or failing, ends with the pool and the register it was
called with. -/
theorem SelectWorstTournOp.selectOneIndividual_keeps_state (env : Env ρ α)
    (op : SelectWorstTournOp) (pool : List α) (sys : System ρ α) :
    (op.selectOneIndividual env pool sys).pool = pool ∧
      (op.selectOneIndividual env pool sys).system.register = sys.register := by
  unfold SelectWorstTournOp.selectOneIndividual
  simp only []
  cases op.getWrappedValue sys.register with
  | none => exact ⟨rfl, rfl⟩
  | some k =>
    cases k with
    | zero => exact ⟨rfl, rfl⟩
    | succ n =>
      simp only [Nat.succ_pos, gt_iff_lt, if_true, Nat.add_sub_cancel]
      obtain ⟨l1, l2⟩ := Machine.tournamentLoop_keeps_state env n
        (uintCast (Machine.rollInteger env 0 (poolHigh pool)
          { pool := pool, register := sys.register, run := sys.context.start }).1)
        (Machine.logDebug
          ("Starting by choosing the " ++ env.uint2ordinal (uintAdd (uintCast
            (Machine.rollInteger env 0 (poolHigh pool)
              { pool := pool, register := sys.register, run := sys.context.start }).1) 1) ++
            " individual")
          (Machine.rollInteger env 0 (poolHigh pool)
            { pool := pool, register := sys.register, run := sys.context.start }).2)
      rcases hres : Machine.tournamentLoop env n
        (uintCast (Machine.rollInteger env 0 (poolHigh pool)
          { pool := pool, register := sys.register, run := sys.context.start }).1)
        (Machine.logDebug
          ("Starting by choosing the " ++ env.uint2ordinal (uintAdd (uintCast
            (Machine.rollInteger env 0 (poolHigh pool)
              { pool := pool, register := sys.register, run := sys.context.start }).1) 1) ++
            " individual")
          (Machine.rollInteger env 0 (poolHigh pool)
            { pool := pool, register := sys.register, run := sys.context.start }).2)
        with ⟨res, m2⟩
      rw [hres] at l1 l2
      simp only at l1 l2
      cases res with
      | error e => exact ⟨l1, l2⟩
      | ok c =>
        obtain ⟨f1, f2⟩ := Machine.finish_keeps_state env c m2
        exact ⟨f1.trans l1, f2.trans l2⟩

/-- A call on an operator whose handle gives the value `k` is the function body run with
`k`. -/
theorem SelectWorstTournOp.selectOneIndividual_of_value (env : Env ρ α)
    (op : SelectWorstTournOp) (pool : List α) (sys : System ρ α) (k : Nat)
    (hk : op.getWrappedValue sys.register = some k) :
    (op.selectOneIndividual env pool sys).events =
        (Beagle.selectOneIndividual env k pool sys.context).events ∧
      (op.selectOneIndividual env pool sys).system.context =
        (Beagle.selectOneIndividual env k pool sys.context).context ∧
      (∀ i, (op.selectOneIndividual env pool sys).result = Except.ok i ↔
        (Beagle.selectOneIndividual env k pool sys.context).result = Except.ok i) ∧
      (∀ e, (op.selectOneIndividual env pool sys).result =
          Except.error (CallFailure.selection e) ↔
        (Beagle.selectOneIndividual env k pool sys.context).result = Except.error e) ∧
      (op.selectOneIndividual env pool sys).result ≠ Except.error CallFailure.handle := by
  rw [SelectWorstTournOp.selectOneIndividual_eq, hk]
  simp only [Outcome.selection]
  refine ⟨trivial, trivial, ?_, ?_, ?_⟩
  · intro i
    cases (Beagle.selectOneIndividual env k pool sys.context).result <;> simp
  · intro e
    cases (Beagle.selectOneIndividual env k pool sys.context).result <;> simp
  · cases (Beagle.selectOneIndividual env k pool sys.context).result <;> simp

/-- C10 as stated fails: two calls on the same (empty) pool with `k = 1` and the same draw
`7`, one with debug logging inactive and one with debug logging active, do not have the same
result: the first returns `7`, the second fails when the last log statement reads the chosen
individual. -/
theorem selectOneIndividual_logger_changes_result :
    (selectOneIndividual rangedEnv 1 ([] : List Nat) (scriptedContext [7] false)).result =
        Except.ok 7 ∧
      (selectOneIndividual rangedEnv 1 ([] : List Nat) (scriptedContext [7] true)).result =
        Except.error (Failure.boundCheck 7 0) ∧
      (selectOneIndividual rangedEnv 1 ([] : List Nat) (scriptedContext [7] false)).result ≠
        (selectOneIndividual rangedEnv 1 ([] : List Nat) (scriptedContext [7] true)).result := by
  refine ⟨rfl, rfl, ?_⟩
  intro h
  have h1 : (selectOneIndividual rangedEnv 1 ([] : List Nat)
      (scriptedContext [7] false)).result = Except.ok 7 := rfl
  have h2 : (selectOneIndividual rangedEnv 1 ([] : List Nat)
      (scriptedContext [7] true)).result = Except.error (Failure.boundCheck 7 0) := rfl
  rw [h1, h2] at h
  cases h

/-- C10 amended, determinism and independence of the observer: two calls on the same pool
with the same `k` and the same randomizer state, whatever their loggers hold and whether or
not debug logging is active, leave the randomizer in the same state and make the same draws
and comparisons in the same order. They have the same result when the two loggers agree on
debug logging; an index within the pool that one call returns the other returns too; and
when the draws are positions of the pool the two results are the same, for `k ≥ 1` a
returned index. -/
theorem selectOneIndividual_logger_independent (env : Env ρ α) (k : Nat) (pool : List α)
    (s : ρ) (logger1 logger2 : Logger α) :
    (selectOneIndividual env k pool { randomizer := s, logger := logger1 }).context.randomizer =
        (selectOneIndividual env k pool
          { randomizer := s, logger := logger2 }).context.randomizer ∧
      (selectOneIndividual env k pool { randomizer := s, logger := logger1 }).events.filter
          (fun e => !e.isPoolRead) =
        (selectOneIndividual env k pool { randomizer := s, logger := logger2 }).events.filter
          (fun e => !e.isPoolRead) ∧
      (logger1.debugLogged = logger2.debugLogged →
        (selectOneIndividual env k pool { randomizer := s, logger := logger1 }).result =
          (selectOneIndividual env k pool { randomizer := s, logger := logger2 }).result) ∧
      (∀ i, i < pool.length →
        (selectOneIndividual env k pool { randomizer := s, logger := logger1 }).result =
          Except.ok i →
        (selectOneIndividual env k pool { randomizer := s, logger := logger2 }).result =
          Except.ok i) ∧
      ((∀ d ∈ nextDraws env 0 (poolHigh pool) k s, d < pool.length) →
        (selectOneIndividual env k pool { randomizer := s, logger := logger1 }).result =
          (selectOneIndividual env k pool { randomizer := s, logger := logger2 }).result ∧
        (1 ≤ k → ∃ i,
          (selectOneIndividual env k pool { randomizer := s, logger := logger1 }).result =
            Except.ok i ∧
          (selectOneIndividual env k pool { randomizer := s, logger := logger2 }).result =
            Except.ok i)) := by
  obtain ⟨h1, h2, h3, h4⟩ := selectOneIndividual_logger env k pool s logger1 logger2
  refine ⟨h1, h2, h3, h4, ?_⟩
  intro hdraws
  cases k with
  | zero => simp [selectOneIndividual]
  | succ n =>
    have a1 := (selectOneIndividual_spec env pool n
      { randomizer := s, logger := logger1 } hdraws).1
    have b1 := (selectOneIndividual_spec env pool n
      { randomizer := s, logger := logger2 } hdraws).1
    exact ⟨by rw [a1, b1], fun _ => ⟨_, a1, b1⟩⟩

/-- C10 amended, at the pool `[10, 2, 7, 9, 1]` with draws `[0, 4, 2]`: one call with debug
logging active and an empty log, the other with debug logging inactive and a log that
already holds an entry. -/
theorem selectOneIndividual_logger_independent_witness :
    (selectOneIndividual fitnessEnv 3 [10, 2, 7, 9, 1]
        { randomizer := [0, 4, 2], logger := { debugLogged := true, entries := [] } }).result =
      (selectOneIndividual fitnessEnv 3 [10, 2, 7, 9, 1]
        { randomizer := [0, 4, 2],
          logger := { debugLogged := false,
                      entries := [LogEntry.message "system" "Beagle::System" "start"] } }).result :=
  ((selectOneIndividual_logger_independent fitnessEnv 3 [10, 2, 7, 9, 1] [0, 4, 2]
    { debugLogged := true, entries := [] }
    { debugLogged := false, entries := [LogEntry.message "system" "Beagle::System" "start"] }
    ).2.2.2.2 (by decide)).1

/-- C11, frame: a call of `selectOneIndividual`, successful or failing, ends with the pool
as it was (same length, same order, same individuals) and with the register, and with it
the tournament-size entry and what the handle reads from it, unchanged: no statement of the
function body assigns to them on the way. The logger keeps its debug switch and its log is
only added to; the rest of what the call changes is the randomizer. -/
theorem selectOneIndividual_leaves_pool_and_register (env : Env ρ α)
    (op : SelectWorstTournOp) (pool : List α) (sys : System ρ α) :
    (op.selectOneIndividual env pool sys).pool = pool ∧
      (op.selectOneIndividual env pool sys).system.register = sys.register ∧
      op.getWrappedValue (op.selectOneIndividual env pool sys).system.register =
        op.getWrappedValue sys.register ∧
      (op.selectOneIndividual env pool sys).system.context.logger.debugLogged =
        sys.context.logger.debugLogged ∧
      sys.context.logger.entries <+:
        (op.selectOneIndividual env pool sys).system.context.logger.entries := by
  obtain ⟨hpool, hreg⟩ := SelectWorstTournOp.selectOneIndividual_keeps_state env op pool sys
  refine ⟨hpool, hreg, by rw [hreg], ?_⟩
  rw [SelectWorstTournOp.selectOneIndividual_eq]
  cases op.getWrappedValue sys.register with
  | none => exact ⟨rfl, List.prefix_refl _⟩
  | some k =>
    obtain ⟨h1, h2, _⟩ := Beagle.selectOneIndividual_frame env k pool sys.context
    exact ⟨h1, h2⟩

/-- C12: after `registerParams` on a system whose register has no entry
`ec.sel.worsttournsize` (and whose base registration registers none under that name), the
entry exists, holds the unsigned value 2 and is described with the type tag `UInt` and the
default `2`, and the handle of the operator refers to it. A selection made right after, on
a pool that is not empty and with draws that are positions of the pool, passes the
validation and returns an index after exactly two draws and one comparison. -/
theorem registerParams_default (env : Env ρ α) (shared : List Entry)
    (op : SelectWorstTournOp) (sys : System ρ α) (pool : List α)
    (hfresh : indexOfTag "ec.sel.worsttournsize" sys.register.entries = none)
    (hshared : ∀ e ∈ shared, e.tag ≠ "ec.sel.worsttournsize")
    (hne : pool ≠ [])
    (hdraws : ∀ d ∈ nextDraws env 0 (poolHigh pool) 2 sys.context.randomizer,
      d < pool.length) :
    (∃ handle e, (op.registerParams shared sys).1.mNumberParticipants = some handle ∧
        indexOfTag "ec.sel.worsttournsize" (op.registerParams shared sys).2.register.entries =
          some handle ∧
        (op.registerParams shared sys).2.register.entries[handle]? = some e ∧
        e.tag = "ec.sel.worsttournsize" ∧ e.object = Object.uint 2 ∧
        e.description.type = "UInt" ∧ e.description.defaultValue = "2") ∧
      (op.registerParams shared sys).1.getWrappedValue
        (op.registerParams shared sys).2.register = some 2 ∧
      (∃ i, ((op.registerParams shared sys).1.selectOneIndividual env pool
        (op.registerParams shared sys).2).result = Except.ok i) ∧
      (((op.registerParams shared sys).1.selectOneIndividual env pool
        (op.registerParams shared sys).2).events.filter Event.isDraw).length = 2 ∧
      (((op.registerParams shared sys).1.selectOneIndividual env pool
        (op.registerParams shared sys).2).events.filter Event.isComparison).length = 1 := by
  have _ := hne
  obtain ⟨_, hctx, hnone⟩ :=
    SelectionOp.registerParams_spec "ec.sel.worsttournsize" shared sys
  have hnone1 := hnone hshared hfresh
  obtain ⟨f1, f2⟩ := Register.insertEntry_fresh (SelectionOp.registerParams shared sys).register
    "ec.sel.worsttournsize" (Object.uint 2) lDescription hnone1
  have hentry : (op.registerParams shared sys).2.register.entries[
      (SelectionOp.registerParams shared sys).register.entries.length]? =
      some ⟨"ec.sel.worsttournsize", Object.uint 2, lDescription⟩ := by
    simp only [SelectWorstTournOp.registerParams]
    rw [f2]
    exact List.getElem?_concat_length _ _
  have hhandle : (op.registerParams shared sys).1.mNumberParticipants =
      some (SelectionOp.registerParams shared sys).register.entries.length := by
    simp only [SelectWorstTournOp.registerParams]
    rw [f1]
  have hvalue : (op.registerParams shared sys).1.getWrappedValue
      (op.registerParams shared sys).2.register = some 2 := by
    simp only [SelectWorstTournOp.getWrappedValue, hhandle, hentry]
  have hcontext : (op.registerParams shared sys).2.context = sys.context := hctx
  obtain ⟨s1, _, s3, _, _⟩ := SelectWorstTournOp.selectOneIndividual_of_value env
    (op.registerParams shared sys).1 pool (op.registerParams shared sys).2 2 hvalue
  rw [hcontext] at s1 s3
  obtain ⟨b1, _, b3, _⟩ := selectOneIndividual_spec env pool 1 sys.context hdraws
  refine ⟨⟨_, _, hhandle, ?_, hentry, rfl, rfl, rfl, rfl⟩, hvalue, ⟨_, (s3 _).mpr b1⟩, ?_, ?_⟩
  · have h := Register.insertEntry_handle (SelectionOp.registerParams shared sys).register
      "ec.sel.worsttournsize" (Object.uint 2) lDescription
    rw [f1] at h
    exact h
  · rw [s1, b3, tournamentEvents_draws, List.length_map, nextDraws_length]
  · rw [s1, b3, tournamentEvents_comparisons, nextDraws_length]

/-- C12 at a system with an empty register, a base registration that registers the
reproduction probability, the pool `[10, 2, 7, 9, 1]` and the draws `[0, 4]`. -/
theorem registerParams_default_witness :
    ((SelectWorstTournOp.construct "ec.repro.prob" "SelectWorstTournOp").registerParams
        [reproProbaEntry] (scriptedSystem [0, 4] true)).1.getWrappedValue
      ((SelectWorstTournOp.construct "ec.repro.prob" "SelectWorstTournOp").registerParams
        [reproProbaEntry] (scriptedSystem [0, 4] true)).2.register = some 2 ∧
    (((SelectWorstTournOp.construct "ec.repro.prob" "SelectWorstTournOp").registerParams
        [reproProbaEntry] (scriptedSystem [0, 4] true)).1.selectOneIndividual fitnessEnv
        [10, 2, 7, 9, 1]
      ((SelectWorstTournOp.construct "ec.repro.prob" "SelectWorstTournOp").registerParams
        [reproProbaEntry] (scriptedSystem [0, 4] true)).2).result = Except.ok 4 :=
  ⟨(registerParams_default fitnessEnv [reproProbaEntry]
      (SelectWorstTournOp.construct "ec.repro.prob" "SelectWorstTournOp")
      (scriptedSystem [0, 4] true) [10, 2, 7, 9, 1] (by decide) (by decide) (by decide)
      (by decide)).2.1, rfl⟩

/-- C13, live parameter reference: after `registerParams`, whatever the register held
before, an edit of the entry `ec.sel.worsttournsize` to `k'` is what the next selection
reads through the handle, without a new registration: the selection is the function body
run with `k'`, it fails the validation exactly when `k' = 0`, and it draws and compares as
the `k'`-way tournament does. -/
theorem selectOneIndividual_live_parameter (env : Env ρ α) (shared : List Entry)
    (op : SelectWorstTournOp) (sys : System ρ α) (pool : List α) (k' : Nat) :
    (op.registerParams shared sys).1.getWrappedValue
        ((op.registerParams shared sys).2.edit "ec.sel.worsttournsize"
          (Object.uint k')).register = some k' ∧
      ((op.registerParams shared sys).1.selectOneIndividual env pool
          ((op.registerParams shared sys).2.edit "ec.sel.worsttournsize"
            (Object.uint k'))).events =
        (selectOneIndividual env k' pool sys.context).events ∧
      ((op.registerParams shared sys).1.selectOneIndividual env pool
          ((op.registerParams shared sys).2.edit "ec.sel.worsttournsize"
            (Object.uint k'))).system.context =
        (selectOneIndividual env k' pool sys.context).context ∧
      (∀ i, ((op.registerParams shared sys).1.selectOneIndividual env pool
          ((op.registerParams shared sys).2.edit "ec.sel.worsttournsize"
            (Object.uint k'))).result = Except.ok i ↔
        (selectOneIndividual env k' pool sys.context).result = Except.ok i) ∧
      (((op.registerParams shared sys).1.selectOneIndividual env pool
          ((op.registerParams shared sys).2.edit "ec.sel.worsttournsize"
            (Object.uint k'))).result =
          Except.error (CallFailure.selection
            (Failure.validateParameter "ec.sel.worsttournsize" ">0")) ↔ k' = 0) := by
  obtain ⟨handle, hop, hfound⟩ := SelectWorstTournOp.registerParams_handle shared op sys
  have hvalue := SelectWorstTournOp.getWrappedValue_edit (op.registerParams shared sys).1
    (op.registerParams shared sys).2.register "ec.sel.worsttournsize" handle k' hop hfound
  have hctx : (op.registerParams shared sys).2.context = sys.context :=
    (SelectionOp.registerParams_spec "ec.sel.worsttournsize" shared sys).2.1
  obtain ⟨s1, s2, s3, s4, _⟩ := SelectWorstTournOp.selectOneIndividual_of_value env
    (op.registerParams shared sys).1 pool
    ((op.registerParams shared sys).2.edit "ec.sel.worsttournsize" (Object.uint k')) k' hvalue
  simp only [System.edit, hctx] at s1 s2 s3 s4 ⊢
  refine ⟨hvalue, s1, s2, s3, ?_⟩
  rw [s4]
  constructor
  · intro h
    cases k' with
    | zero => rfl
    | succ n =>
      obtain ⟨index, hindex⟩ := selectOneIndividual_succ_error env pool n sys.context _ h
      cases hindex
  · intro h
    subst h
    simp [selectOneIndividual]

/-- C14: one call of `registerParams` adds to the record of insertions first the
insertions of the base registration, in their order, and then, once and last, the insertion
of `ec.sel.worsttournsize` with a `UInt` of value 2; when the base registration inserts
nothing under that name, the name is inserted exactly once in the whole call. -/
theorem registerParams_order (shared : List Entry) (op : SelectWorstTournOp)
    (sys : System ρ α) :
    (SelectionOp.registerParams shared sys).register.insertions =
        sys.register.insertions ++ shared ∧
      (op.registerParams shared sys).2.register.insertions =
        sys.register.insertions ++ shared ++ [tournSizeInsertion] ∧
      ((∀ e ∈ shared, e.tag ≠ "ec.sel.worsttournsize") →
        (shared ++ [tournSizeInsertion]).countP
          (fun (e : Entry) => decide (e.tag = "ec.sel.worsttournsize")) = 1) := by
  obtain ⟨h1, _, _⟩ := SelectionOp.registerParams_spec "ec.sel.worsttournsize" shared sys
  refine ⟨h1, ?_, ?_⟩
  · simp only [SelectWorstTournOp.registerParams]
    rw [Register.insertEntry_insertions, h1]
    rfl
  · intro hshared
    rw [List.countP_append]
    have h0 : shared.countP (fun (e : Entry) => decide (e.tag = "ec.sel.worsttournsize")) = 0 := by
      rw [List.countP_eq_zero]
      intro e he
      simpa using hshared e he
    rw [h0]
    simp [List.countP_cons, tournSizeInsertion]

/-- Under an asymmetric ordering predicate the candidate does not `isLess` what the
replacement rule makes of it. -/
theorem replaceIfWorse_not_better (env : Env ρ α) (pool : List α) (c d : Nat)
    (hc : c < pool.length) (hd : d < pool.length)
    (hasym : ∀ a b, env.isLess a b = true → env.isLess b a = false) :
    isWorseAt env pool c (replaceIfWorse env pool c d) = false := by
  by_cases hw : isWorseAt env pool d c = true
  · have hrep : replaceIfWorse env pool c d = d := if_pos hw
    rw [hrep, isWorseAt_of_lt env pool c d hc hd]
    rw [isWorseAt_of_lt env pool d c hd hc] at hw
    exact hasym _ _ hw
  · have hrep : replaceIfWorse env pool c d = c := if_neg hw
    rw [hrep]
    apply isWorseAt_irrefl
    intro a
    cases h : env.isLess a a
    · rfl
    · have := hasym a a h
      rw [h] at this
      cases this

/-- C15: for a pool that is not empty (its size an `unsigned int`), `k ≥ 1` and draws
within the range, the call returns an index after requesting exactly `k` draws, each over
`[0, size - 1]`, and evaluating `isLess` exactly `k - 1` times. The randomizer is left in
the state it has after exactly `k` draws, and a call from any other randomizer state whose
first `k` draws are the same returns the same: what would be drawn after the `k`-th draw
is neither consumed nor of any effect. -/
theorem selectOneIndividual_draw_count (env : Env ρ α) (k : Nat) (pool : List α)
    (ctx : Context ρ α) (hne : pool ≠ []) (hk : 1 ≤ k) (hfit : pool.length < 2 ^ 32)
    (hdraws : ∀ d ∈ nextDraws env 0 (pool.length - 1) k ctx.randomizer,
      d ≤ pool.length - 1) :
    (∃ i, (selectOneIndividual env k pool ctx).result = Except.ok i) ∧
      (selectOneIndividual env k pool ctx).events.filter Event.isDraw =
        (nextDraws env 0 (pool.length - 1) k ctx.randomizer).map
          (fun d => Event.rollInteger 0 (pool.length - 1) d) ∧
      ((selectOneIndividual env k pool ctx).events.filter Event.isDraw).length = k ∧
      ((selectOneIndividual env k pool ctx).events.filter Event.isComparison).length = k - 1 ∧
      (selectOneIndividual env k pool ctx).context.randomizer =
        randomizerAfter env 0 (pool.length - 1) k ctx.randomizer ∧
      ∀ ctx' : Context ρ α,
        nextDraws env 0 (pool.length - 1) k ctx'.randomizer =
          nextDraws env 0 (pool.length - 1) k ctx.randomizer →
        (selectOneIndividual env k pool ctx').result =
          (selectOneIndividual env k pool ctx).result := by
  have hlen : 0 < pool.length := List.length_pos.mpr hne
  have hhigh := poolHigh_eq pool hne hfit
  obtain ⟨n, rfl⟩ : ∃ n, k = n + 1 := ⟨k - 1, by omega⟩
  rw [← hhigh] at hdraws ⊢
  have hin : ∀ d ∈ nextDraws env 0 (poolHigh pool) (n + 1) ctx.randomizer, d < pool.length := by
    intro d hd
    have := hdraws d hd
    omega
  obtain ⟨h1, h2, h3, _⟩ := selectOneIndividual_spec env pool n ctx hin
  refine ⟨⟨_, h1⟩, ?_, ?_, ?_, h2, ?_⟩
  · rw [h3, tournamentEvents_draws]
  · rw [h3, tournamentEvents_draws, List.length_map, nextDraws_length]
  · rw [h3, tournamentEvents_comparisons, nextDraws_length]
  · intro ctx' hsame
    have hin' : ∀ d ∈ nextDraws env 0 (poolHigh pool) (n + 1) ctx'.randomizer,
        d < pool.length := by
      rw [hsame]; exact hin
    have h1' := (selectOneIndividual_spec env pool n ctx' hin').1
    simp only [nextDraws, List.cons.injEq] at hsame
    rw [h1', h1, hsame.1, hsame.2]

/-- C15 at the pool `[10, 2, 7, 9, 1]` with `k = 3` and the stream `[0, 4, 2, 3, 1]`: three
draws, two comparisons, and the values `3` and `1` are still to come. -/
theorem selectOneIndividual_draw_count_witness :
    (selectOneIndividual fitnessEnv 3 [10, 2, 7, 9, 1]
        (scriptedContext [0, 4, 2, 3, 1] false)).events.filter Event.isDraw =
      [Event.rollInteger 0 4 0, Event.rollInteger 0 4 4, Event.rollInteger 0 4 2] ∧
    ((selectOneIndividual fitnessEnv 3 [10, 2, 7, 9, 1]
        (scriptedContext [0, 4, 2, 3, 1] false)).events.filter Event.isComparison).length = 2 ∧
    (selectOneIndividual fitnessEnv 3 [10, 2, 7, 9, 1]
        (scriptedContext [0, 4, 2, 3, 1] false)).context.randomizer = [3, 1] :=
  have h := selectOneIndividual_draw_count fitnessEnv 3 [10, 2, 7, 9, 1]
    (scriptedContext [0, 4, 2, 3, 1] false) (by decide) (by decide) (by decide) (by decide)
  ⟨h.2.1, h.2.2.2.1, h.2.2.2.2.1⟩

/-- C16: for a pool that is not empty, `k ≥ 1`, any randomizer and any ordering predicate,
an index that `selectOneIndividual` returns is one of the `k` indices drawn, each taken as
the `unsigned int` the code stores it in (`lChoosenIndividual`, `lTriedIndividual`), so
that the index returned is an `unsigned int` as the return type is; and when the draws are
positions of the pool an index is returned. -/
theorem selectOneIndividual_returns_drawn (env : Env ρ α) (k : Nat) (pool : List α)
    (ctx : Context ρ α) (hne : pool ≠ []) (hk : 1 ≤ k) :
    (∀ i, (selectOneIndividual env k pool ctx).result = Except.ok i →
        i ∈ nextDraws env 0 (poolHigh pool) k ctx.randomizer ∧ i < 2 ^ 32) ∧
      ((∀ d ∈ nextDraws env 0 (poolHigh pool) k ctx.randomizer, d < pool.length) →
        ∃ i, (selectOneIndividual env k pool ctx).result = Except.ok i ∧
          i ∈ nextDraws env 0 (poolHigh pool) k ctx.randomizer) := by
  have _ := hne
  obtain ⟨n, rfl⟩ : ∃ n, k = n + 1 := ⟨k - 1, by omega⟩
  have hmem := fun i h => ((selectOneIndividual_frame env (n + 1) pool ctx).2.2 i h).1
  refine ⟨fun i h => ⟨hmem i h, nextDraws_unsigned env 0 _ _ _ i (hmem i h)⟩, ?_⟩
  intro hdraws
  have h1 := (selectOneIndividual_spec env pool n ctx hdraws).1
  exact ⟨_, h1, hmem _ h1⟩

/-- C16 at the pool `[10, 2, 7, 9, 1]` with a randomizer that hands out `0` and then
`4294967298`: the second draw is stored in an `unsigned int` as `2`, the individual there
is less than the one at `0`, and the index returned is the drawn index `2`. -/
theorem selectOneIndividual_returns_drawn_witness :
    (selectOneIndividual fitnessEnv 2 [10, 2, 7, 9, 1]
        (scriptedContext [0, 4294967298] false)).result = Except.ok 2 ∧
      nextDraws fitnessEnv 0 (poolHigh [10, 2, 7, 9, 1]) 2
        (scriptedContext [0, 4294967298] false).randomizer = [0, 2] ∧
      2 ∈ nextDraws fitnessEnv 0 (poolHigh [10, 2, 7, 9, 1]) 2
        (scriptedContext [0, 4294967298] false).randomizer ∧ 2 < 2 ^ 32 :=
  ⟨rfl, rfl, (selectOneIndividual_returns_drawn fitnessEnv 2 [10, 2, 7, 9, 1]
    (scriptedContext [0, 4294967298] false) (by decide) (by decide)).1 2 rfl⟩

/-- C17, monotonicity in the tournament size: for a pool that is not empty and draws that
are positions of the pool, the call with `k + 1` returns what the call with `k` returns or
the `(k + 1)`-th index drawn; both are positions of the pool, and when `isLess` is
asymmetric the individual returned with `k` does not `isLess` the one returned with
`k + 1`. -/
theorem selectOneIndividual_monotone (env : Env ρ α) (k : Nat) (pool : List α)
    (ctx : Context ρ α) (hne : pool ≠ []) (hk : 1 ≤ k)
    (hdraws : ∀ d ∈ nextDraws env 0 (poolHigh pool) (k + 1) ctx.randomizer,
      d < pool.length) :
    ∃ (rk rk1 dk : Nat) (hrk : rk < pool.length) (hrk1 : rk1 < pool.length),
      (selectOneIndividual env k pool ctx).result = Except.ok rk ∧
      (selectOneIndividual env (k + 1) pool ctx).result = Except.ok rk1 ∧
      (nextDraws env 0 (poolHigh pool) (k + 1) ctx.randomizer)[k]? = some dk ∧
      (rk1 = rk ∨ rk1 = dk) ∧
      ((∀ a b, env.isLess a b = true → env.isLess b a = false) →
        env.isLess pool[rk] pool[rk1] = false) := by
  have _ := hne
  obtain ⟨n, rfl⟩ : ∃ n, k = n + 1 := ⟨k - 1, by omega⟩
  have hsplit := nextDraws_succ_last env 0 (poolHigh pool) (n + 1) ctx.randomizer
  have hdrawsk : ∀ d ∈ nextDraws env 0 (poolHigh pool) (n + 1) ctx.randomizer,
      d < pool.length := by
    intro d hd
    exact hdraws d (by rw [hsplit]; simp [hd])
  have hlast : (uintCast (env.rollInteger (randomizerAfter env 0 (poolHigh pool) (n + 1) ctx.randomizer)
      0 (poolHigh pool)).1) < pool.length :=
    hdraws _ (by rw [hsplit]; simp)
  have hk1 := (selectOneIndividual_spec env pool n ctx hdrawsk).1
  have hk2 := (selectOneIndividual_spec env pool (n + 1) ctx hdraws).1
  have hd0 : (uintCast (env.rollInteger ctx.randomizer 0 (poolHigh pool)).1) < pool.length :=
    hdrawsk _ (by simp [nextDraws])
  have hrest : ∀ d ∈ nextDraws env 0 (poolHigh pool) n
      (env.rollInteger ctx.randomizer 0 (poolHigh pool)).2, d < pool.length :=
    fun d hmem => hdrawsk d (by simp [nextDraws, hmem])
  have hrk := foldl_replaceIfWorse_lt env pool _ _ hd0 hrest
  -- the call with one more participant folds one more draw
  have hfold : List.foldl (replaceIfWorse env pool)
      (uintCast (env.rollInteger ctx.randomizer 0 (poolHigh pool)).1)
      (nextDraws env 0 (poolHigh pool) (n + 1)
        (env.rollInteger ctx.randomizer 0 (poolHigh pool)).2) =
      replaceIfWorse env pool
        (List.foldl (replaceIfWorse env pool)
          (uintCast (env.rollInteger ctx.randomizer 0 (poolHigh pool)).1)
          (nextDraws env 0 (poolHigh pool) n
            (env.rollInteger ctx.randomizer 0 (poolHigh pool)).2))
        (uintCast (env.rollInteger (randomizerAfter env 0 (poolHigh pool) (n + 1) ctx.randomizer)
          0 (poolHigh pool)).1) := by
    rw [nextDraws_succ_last, List.foldl_append]
    rfl
  rw [hfold] at hk2
  have hrk1 := replaceIfWorse_lt env pool _ _ hrk hlast
  refine ⟨_, _, (uintCast (env.rollInteger (randomizerAfter env 0 (poolHigh pool) (n + 1) ctx.randomizer)
    0 (poolHigh pool)).1), hrk, hrk1, hk1, hk2, ?_, ?_, ?_⟩
  · rw [hsplit]
    have hlen := nextDraws_length env 0 (poolHigh pool) (n + 1) ctx.randomizer
    have hget := List.getElem?_concat_length
      (nextDraws env 0 (poolHigh pool) (n + 1) ctx.randomizer)
      (uintCast (env.rollInteger (randomizerAfter env 0 (poolHigh pool) (n + 1) ctx.randomizer)
        0 (poolHigh pool)).1)
    rw [hlen] at hget
    exact hget
  · unfold replaceIfWorse
    split
    · right; rfl
    · left; rfl
  · intro hasym
    exact (isWorseAt_of_lt env pool _ _ hrk hrk1).symm.trans
      (replaceIfWorse_not_better env pool _ _ hrk hlast hasym)

/-- C17 at the pool `[10, 2, 7, 9, 1]` with the stream `[0, 2, 4]`: two participants give
index `2`, three give the third draw `4`, and fitness `7` is not less than fitness `1`. -/
theorem selectOneIndividual_monotone_witness :
    (selectOneIndividual fitnessEnv 2 [10, 2, 7, 9, 1]
        (scriptedContext [0, 2, 4] false)).result = Except.ok 2 ∧
    (selectOneIndividual fitnessEnv 3 [10, 2, 7, 9, 1]
        (scriptedContext [0, 2, 4] false)).result = Except.ok 4 ∧
    ∃ (rk rk1 dk : Nat) (hrk : rk < [10, 2, 7, 9, 1].length)
        (hrk1 : rk1 < [10, 2, 7, 9, 1].length),
      (selectOneIndividual fitnessEnv 2 [10, 2, 7, 9, 1]
        (scriptedContext [0, 2, 4] false)).result = Except.ok rk ∧
      (selectOneIndividual fitnessEnv (2 + 1) [10, 2, 7, 9, 1]
        (scriptedContext [0, 2, 4] false)).result = Except.ok rk1 ∧
      (nextDraws fitnessEnv 0 (poolHigh [10, 2, 7, 9, 1]) (2 + 1)
        (scriptedContext [0, 2, 4] false).randomizer)[2]? = some dk ∧
      (rk1 = rk ∨ rk1 = dk) ∧
      ((∀ a b, fitnessEnv.isLess a b = true → fitnessEnv.isLess b a = false) →
        fitnessEnv.isLess [10, 2, 7, 9, 1][rk] [10, 2, 7, 9, 1][rk1] = false) :=
  ⟨rfl, rfl, selectOneIndividual_monotone fitnessEnv 2 [10, 2, 7, 9, 1]
    (scriptedContext [0, 2, 4] false) (by decide) (by decide) (by decide)⟩

end Beagle
